import Mathlib

/-!
Verification development for the `compare_folders` command line tool
(`src/main.rs`).  The tool scans a list of directories, hashes every file
directly inside each of them (optionally restricted to one file extension),
groups files across directories by digest, optionally drops "boring" groups
(`--diffonly`), and prints a digest-sorted table with one summary column per
input directory.

The Rust program is shallowly embedded below:

* bytes are `List Nat`;
* the filesystem is a map from a directory path to a `DirListing`
  (not a directory, unreadable, or a list of per-entry results, mirroring
  what `read_dir` produces);
* the cryptographic digest (`ring`'s SHA-256 followed by `HEXUPPER.encode`)
  is an abstract parameter `hashFn : List Nat → String`; the chunked reading
  loop of `sha256_digest` is embedded concretely;
* grapheme segmentation (`unicode_segmentation`) is an abstract parameter
  `graphemes : String → List String`; `fixed_length` works on the resulting
  cluster lists;
* `Path::file_name` applied to an input directory (used for the table
  header) is an abstract parameter `fileNameOf : String → Option String`.

Files scanned out of a directory are identified by their parent directory
and their file name, exactly the two path components the program ever
consults (`file.parent()` and `file.file_name()`).
-/

/-- Byte strings: the content of a regular file. -/
abbrev Bytes := List Nat

/-- What a directory entry is on disk.  A regular file carries `some` byte
content when it can be opened and read to completion, and `none` when any
part of opening/reading it fails.  `nonFile` covers subdirectories and other
non-regular entries; opening and reading those fails as well (the Rust code
never tests `is_file`, it relies on `File::open`/`read` failing). -/
inductive EntryKind where
  | file (content : Option Bytes)
  | nonFile
deriving DecidableEq, Repr

/-- A successfully listed directory entry: its file name and what it is. -/
structure DirEntryOk where
  name : String
  kind : EntryKind
deriving DecidableEq, Repr

/-- One item produced while iterating `read_dir`: either an entry or an
I/O error for that item. -/
inductive EntryResult where
  | ok (entry : DirEntryOk)
  | ioErr (msg : String)
deriving DecidableEq, Repr

/-- The outcome of looking at one input directory: `!directory.is_dir()`,
`read_dir` failing as a whole, or the sequence of per-entry results. -/
inductive DirListing where
  | notADir
  | readErr (msg : String)
  | ok (entries : List EntryResult)
deriving DecidableEq, Repr

/-- A file that made it into the grouping: its parent directory (the input
directory it was listed in, which is what `file.parent()` returns for
`dir.join(name)`) and its file name. -/
structure FileEntry where
  parent : String
  name : String
deriving DecidableEq, Repr

/-- The parsed command line (`struct Args`). -/
structure Args where
  directories : List String
  extension : Option String
  colwidth : Nat
  diffonly : Bool

/-- The diagnostics the program writes to the error stream, one per local
failure, mirroring the four `eprintln!` sites of `main`. -/
inductive Diag where
  | notADir (dir : String)
  | dirReadErr (dir : String) (msg : String)
  | entryIterErr (dir : String) (msg : String)
  | hashErr (dir : String) (name : String) (msg : String)
deriving DecidableEq, Repr

/-! ## Hashing (`sha256_digest`, `file_hash`)

The SHA-256 context is modelled by the byte sequence it has absorbed:
`Context::update` appends the chunk, `Context::finish`/`HEXUPPER.encode`
are the abstract `hashFn`.  `sha256_digest` reads chunks of at most 1024
bytes from the reader (modelled by the remaining byte list) until a read
returns 0 bytes.  Each loop iteration consumes `min 1024 |rem|` bytes, so
starting the structural fuel at the total length of the input covers every
iteration that still has bytes to read; with no bytes left the loop stops
with the context unchanged, which is also what the zero-fuel case returns. -/

/-- `Context::update(&buffer[..count])`: absorb one chunk. -/
def sha256_update (ctx chunk : Bytes) : Bytes := ctx ++ chunk

/-- The `loop { let count = reader.read(&mut buffer)?; if count == 0 { break; }
context.update(&buffer[..count]); }` of `sha256_digest`.  `rem` is what the
reader has not yet produced; a read returns `rem.take 1024`. -/
def sha256_digestLoop : Nat → Bytes → Bytes → Bytes
  | 0, ctx, _ => ctx
  | fuel + 1, ctx, rem =>
    if rem.isEmpty then ctx
    else sha256_digestLoop fuel (sha256_update ctx (rem.take 1024)) (rem.drop 1024)

/-- `sha256_digest(reader)`: the bytes absorbed by the context once the
reader is exhausted (the digest is `hashFn` of this). -/
def sha256_digest (content : Bytes) : Bytes :=
  sha256_digestLoop content.length [] content

/-- `file_hash`: open the file, stream it through `sha256_digest`, and
hex-encode the result.  Opening/reading fails for unreadable files and for
non-regular entries such as subdirectories. -/
def file_hash (hashFn : Bytes → String) (kind : EntryKind) : Except String String :=
  match kind with
  | .file (some content) => .ok (hashFn (sha256_digest content))
  | .file none => .error "could not be read"
  | .nonFile => .error "not a regular file"

/-- Modelled from the spec: "compute its Digest by reading its full byte
content".  The digest of a file is the hash of the whole content taken as
one sequence; the implementation's chunked reading must refine this. -/
def file_digest_spec (hashFn : Bytes → String) (content : Bytes) : String :=
  hashFn content

/-! ## Extension filtering

`Path::extension()` of `dir.join(name)` is the extension of `name`: the
part of the file name after the final dot, provided the part before that
dot is nonempty; otherwise there is no extension. -/

/-- `Path::extension()` on a final path component. -/
def extensionOf (name : String) : Option String :=
  let cs := name.data
  let revExt := cs.reverse.takeWhile (fun c => !(c == '.'))
  if revExt.length = cs.length then none
  else if cs.length ≤ revExt.length + 1 then none
  else some (String.mk revExt.reverse)

/-- `args.extension == None || args.extension == file.extension()`. -/
def extensionMatches (filt : Option String) (name : String) : Bool :=
  decide (filt = none) || decide (filt = extensionOf name)

/-! ## Scanning (the nested loops of `main` that fill `hash_to_files`) -/

/-- Processing of one `read_dir` item: on success, apply the extension
filter and hash the file, recording either a `(digest, file)` pair or a
hashing diagnostic; on an iteration error, record that diagnostic. -/
def scanEntry (hashFn : Bytes → String) (filt : Option String) (dir : String) :
    EntryResult → List (String × FileEntry) × List Diag
  | .ok e =>
    if extensionMatches filt e.name then
      match file_hash hashFn e.kind with
      | .ok h => ([(h, { parent := dir, name := e.name })], [])
      | .error m => ([], [Diag.hashErr dir e.name m])
    else ([], [])
  | .ioErr m => ([], [Diag.entryIterErr dir m])

/-- Processing of one input directory. -/
def scanListing (hashFn : Bytes → String) (filt : Option String) (dir : String) :
    DirListing → List (String × FileEntry) × List Diag
  | .notADir => ([], [Diag.notADir dir])
  | .readErr m => ([], [Diag.dirReadErr dir m])
  | .ok entries =>
    ((entries.map (fun er => (scanEntry hashFn filt dir er).1)).flatten,
     (entries.map (fun er => (scanEntry hashFn filt dir er).2)).flatten)

/-- All `(digest, file)` pairs produced by the scan phase, in scan order:
directories in the order given on the command line, entries in the order
the filesystem lists them. -/
def scannedFiles (hashFn : Bytes → String) (args : Args) (fs : String → DirListing) :
    List (String × FileEntry) :=
  (args.directories.map (fun d => (scanListing hashFn args.extension d (fs d)).1)).flatten

/-- All diagnostics emitted during the scan phase, in order. -/
def diagnostics (hashFn : Bytes → String) (args : Args) (fs : String → DirListing) :
    List Diag :=
  (args.directories.map (fun d => (scanListing hashFn args.extension d (fs d)).2)).flatten

/-! ## Grouping (`hash_to_files`)

`hash_to_files.entry(hash).or_insert(Vec::new()).push(file)` keyed by
digest.  The map is embedded as an association list with one entry per
digest; iteration order of the `HashMap` is irrelevant because the program
sorts the entries by digest before using them. -/

/-- `entry(h).or_insert(Vec::new()).push(f)`. -/
def insertFile : List (String × List FileEntry) → String → FileEntry →
    List (String × List FileEntry)
  | [], h, f => [(h, [f])]
  | (k, fs) :: rest, h, f =>
    if k = h then (k, fs ++ [f]) :: rest else (k, fs) :: insertFile rest h f

/-- Fold the scan results into the digest-to-files map. -/
def groupFiles (l : List (String × FileEntry)) : List (String × List FileEntry) :=
  l.foldl (fun m p => insertFile m p.1 p.2) []

/-- The files of the scan results that carry digest `h`, in scan order:
this is what the map associates with `h`. -/
def groupOf (l : List (String × FileEntry)) (h : String) : List FileEntry :=
  (l.filter (fun p => p.1 == h)).map Prod.snd

/-! ## Sorting (`hash_to_files.sort_unstable_by(|(h1,_),(h2,_)| h1.cmp(&h2))`)

Rust's `String::cmp` is lexicographic.  It is embedded as a character-list
comparison; the digest keys of the map are pairwise distinct, so any
correct sorting of the entries by key produces the same list and stability
of the algorithm is immaterial. -/

/-- Lexicographic string comparison, `a ≤ b`: mirrors `str::cmp`. -/
def charListLe : List Char → List Char → Bool
  | [], _ => true
  | _ :: _, [] => false
  | a :: as, b :: bs =>
    if a < b then true
    else if a = b then charListLe as bs
    else false

/-- `hash1.cmp(&hash2) != Greater` for two digest strings. -/
def digestLe (a b : String) : Prop := charListLe a.data b.data = true

instance : DecidableRel digestLe := fun a b =>
  inferInstanceAs (Decidable (charListLe a.data b.data = true))

/-- A group of the map: one digest together with all its files. -/
abbrev HashGroup := String × List FileEntry

/-- The comparison used by `sort_unstable_by`: by digest. -/
def groupLe (g₁ g₂ : HashGroup) : Prop := digestLe g₁.1 g₂.1

instance : DecidableRel groupLe := fun g₁ g₂ =>
  inferInstanceAs (Decidable (digestLe g₁.1 g₂.1))

/-- The digest-sorted list of groups. -/
def sortGroups (l : List HashGroup) : List HashGroup := List.insertionSort groupLe l

def sortedGroups (hashFn : Bytes → String) (args : Args) (fs : String → DirListing) :
    List HashGroup :=
  sortGroups (groupFiles (scannedFiles hashFn args fs))

/-! ## The `--diffonly` filter (`hash_to_files.retain(...)`) -/

/-- `files.iter().all(|file| file.file_name() == files[0].file_name())`:
whether every file of the group has the same name as the first one. -/
def allSameName (files : List FileEntry) : Bool :=
  match files with
  | [] => true
  | f0 :: _ => files.all (fun f => f.name == f0.name)

/-- The `retain` predicate: keep a group when its size differs from the
number of input directories, or when the names are not all the same. -/
def diffKeep (dirCount : Nat) (files : List FileEntry) : Bool :=
  (files.length != dirCount) || !(allSameName files)

/-- `allSameName` with every element access made explicit: each invocation
of the closure looks up `files[0]?`, and the whole computation is `none`
exactly when some invocation would index out of bounds. -/
def allSameNameChecked (files : List FileEntry) : Option Bool :=
  files.foldr
    (fun f acc =>
      match acc, files[0]? with
      | some b, some f0 => some ((f.name == f0.name) && b)
      | _, _ => none)
    (some true)

/-- `diffKeep` with the `files[0]` access made explicit.  The size test is
the left operand of the short-circuiting `||`, so the name test (and with
it the indexing) is only evaluated when the size test fails. -/
def diffKeepChecked (dirCount : Nat) (files : List FileEntry) : Option Bool :=
  if files.length != dirCount then some true
  else (allSameNameChecked files).map (fun b => !b)

/-- The groups that survive into the printing loop. -/
def finalGroups (hashFn : Bytes → String) (args : Args) (fs : String → DirListing) :
    List HashGroup :=
  if args.diffonly then
    (sortedGroups hashFn args fs).filter (fun g => diffKeep args.directories.length g.2)
  else sortedGroups hashFn args fs

/-! ## Rendering -/

/-- `fixed_length`: the grapheme clusters of `s` chained with endlessly
repeated `padding`, truncated to the first `len` clusters.  At most `len`
clusters of padding can ever be taken, so the infinite repetition is
embedded by `len` copies. -/
def fixed_length (s : List String) (len : Nat) (padding : String) : List String :=
  (s ++ List.replicate len padding).take len

/-- A rendered table cell: `fixed_length` of the cell text's grapheme
clusters, collected back into a string. -/
def renderCell (graphemes : String → List String) (width : Nat) (s : String) : String :=
  String.join (fixed_length (graphemes s) width " ")

/-- The text shown for the files of one group living in one directory:
"–" for none, the file's name for exactly one, and "(n files)" for more. -/
def cellText : List FileEntry → String
  | [] => "–"
  | [f] => f.name
  | f₁ :: f₂ :: rest => "(" ++ toString (f₁ :: f₂ :: rest).length ++ " files)"

/-- The per-directory summary cell of one group: the files of the group
whose immediate parent is `dir` (`file.parent().unwrap() == dir`), mapped
through `cellText`. -/
def summaryCell (files : List FileEntry) (dir : String) : String :=
  cellText (files.filter (fun f => f.parent == dir))

/-- One data row of the report, before column fitting. -/
structure Row where
  ordinal : Nat
  digest : String
  cells : List String
deriving DecidableEq, Repr

/-- The row printed for one group. -/
def mkRow (args : Args) (ordinal : Nat) (g : HashGroup) : Row :=
  { ordinal := ordinal, digest := g.1,
    cells := args.directories.map (fun d => summaryCell g.2 d) }

/-- The printing loop: `counter` starts at 1 and increases by one per group. -/
def tableRowsAux (args : Args) : Nat → List HashGroup → List Row
  | _, [] => []
  | counter, g :: rest => mkRow args counter g :: tableRowsAux args (counter + 1) rest

def tableRows (hashFn : Bytes → String) (args : Args) (fs : String → DirListing) :
    List Row :=
  tableRowsAux args 1 (finalGroups hashFn args fs)

/-- `" ".repeat(n)`. -/
def repeatStr (s : String) (n : Nat) : String := String.join (List.replicate n s)

/-- The header line: `#`, the `SHA256` label padded to the 64 characters of
a hex digest, then one fitted column per input directory labelled with the
directory's base name (or `???` when it has none). -/
def headerLine (graphemes : String → List String) (fileNameOf : String → Option String)
    (args : Args) : String :=
  "#\tSHA256" ++ repeatStr " " (64 - "SHA256".length) ++ "\t" ++
    String.intercalate "\t" (args.directories.map (fun d =>
      renderCell graphemes args.colwidth ((fileNameOf d).getD "???")))

/-- One printed data line: ordinal, full digest, then the fitted cells. -/
def rowLine (graphemes : String → List String) (args : Args) (r : Row) : String :=
  toString r.ordinal ++ "\t" ++ r.digest ++ "\t" ++
    String.intercalate "\t" (r.cells.map (fun c => renderCell graphemes args.colwidth c))

/-- Everything `main` prints to standard output, line by line: a blank
line, the header, the data rows, and a final blank line. -/
def table (hashFn : Bytes → String) (graphemes : String → List String)
    (fileNameOf : String → Option String) (args : Args) (fs : String → DirListing) :
    List String :=
  "" :: headerLine graphemes fileNameOf args ::
    ((tableRows hashFn args fs).map (fun r => rowLine graphemes args r) ++ [""])

/-- Two views of one directory that list the same entries, possibly in a
different order (filesystem enumeration order is not guaranteed). -/
def ListingPerm : DirListing → DirListing → Prop
  | .ok es₁, .ok es₂ => List.Perm es₁ es₂
  | l₁, l₂ => l₁ = l₂

instance : ∀ l₁ l₂, Decidable (ListingPerm l₁ l₂) := fun l₁ l₂ =>
  match l₁, l₂ with
  | .ok es₁, .ok es₂ => inferInstanceAs (Decidable (List.Perm es₁ es₂))
  | .ok es₁, .notADir => inferInstanceAs (Decidable (DirListing.ok es₁ = DirListing.notADir))
  | .ok es₁, .readErr m => inferInstanceAs (Decidable (DirListing.ok es₁ = DirListing.readErr m))
  | .notADir, l₂ => inferInstanceAs (Decidable (_ = l₂))
  | .readErr _m, l₂ => inferInstanceAs (Decidable (_ = l₂))

/-- The file name of a successfully listed entry. -/
def okName : EntryResult → Option String
  | .ok e => some e.name
  | .ioErr _ => none

/-- Wellformedness of a filesystem listing: a real directory never lists
two entries with the same file name. -/
def listingNamesNodup : DirListing → Prop
  | .ok es => (es.filterMap okName).Nodup
  | _ => True

instance : ∀ l, Decidable (listingNamesNodup l) := fun l =>
  match l with
  | .ok _es => inferInstanceAs (Decidable (List.Nodup _))
  | .notADir => inferInstanceAs (Decidable True)
  | .readErr _ => inferInstanceAs (Decidable True)

/-! ## Helper functions used by the proofs -/

/-- First-match lookup in the association list embedding of the map. -/
def lookupG : List (String × List FileEntry) → String → Option (List FileEntry)
  | [], _ => none
  | (k, v) :: rest, h => if k = h then some v else lookupG rest h

/-- The optional `(digest, file)` pair one `read_dir` item contributes:
`(scanEntry ...).1` is exactly `(scanEntryPair ...).toList`. -/
def scanEntryPair (hashFn : Bytes → String) (filt : Option String) (dir : String) :
    EntryResult → Option (String × FileEntry)
  | .ok e =>
    if extensionMatches filt e.name then
      match file_hash hashFn e.kind with
      | .ok h => some (h, { parent := dir, name := e.name })
      | .error _ => none
    else none
  | .ioErr _ => none

/-- Strict digest order, used to see that the sorted list of the pairwise
distinct digest keys is uniquely determined. -/
def digestLt (a b : String) : Prop := digestLe a b ∧ a ≠ b

/-! ## Concrete fixtures used by the witness theorems -/

/-- A digest function that ignores the content. -/
def hashC : Bytes → String := fun _ => "H"

/-- A digest function that distinguishes empty from nonempty content. -/
def hashAB : Bytes → String := fun c => if c.isEmpty then "A" else "B"

/-- Code-point-level segmentation, a concrete instantiation of the
grapheme segmentation parameter. -/
def graphemesW : String → List String := fun s => s.data.map (fun c => String.mk [c])

/-- A concrete instantiation of the base-name parameter. -/
def fileNameW : String → Option String := fun s => some s

def argsW1 : Args :=
  { directories := ["a", "b"], extension := none, colwidth := 20, diffonly := true }

def fsW1 : String → DirListing := fun d =>
  if d = "a" then .ok [.ok ⟨"f1", .file (some [1])⟩]
  else if d = "b" then .ok []
  else .notADir

def argsW3 : Args :=
  { directories := ["a"], extension := none, colwidth := 20, diffonly := false }

def fsW3 : String → DirListing := fun d =>
  if d = "a" then .ok [.ok ⟨"f1", .file (some [])⟩, .ok ⟨"f2", .file (some [7])⟩]
  else .notADir

def fsW4 : String → DirListing := fun d =>
  if d = "a" then .ok [.ok ⟨"f2", .file (some [7])⟩, .ok ⟨"f1", .file (some [])⟩]
  else .notADir

def argsW7 : Args :=
  { directories := ["a"], extension := none, colwidth := 20, diffonly := true }

def fsW7 : String → DirListing := fun d =>
  if d = "a" then .ok [.ok ⟨"f1", .file (some [1])⟩, .ok ⟨"f2", .file (some [1])⟩]
  else .notADir

def argsW8 : Args :=
  { directories := ["a", "b"], extension := none, colwidth := 20, diffonly := false }

def fsW8 : String → DirListing := fun d =>
  if d = "a" then .ok [.ok ⟨"x", .file (some [5])⟩]
  else if d = "b" then .ok [.ok ⟨"y", .file (some [5])⟩]
  else .notADir

def argsW9 : Args :=
  { directories := ["a", "b", "c"], extension := none, colwidth := 20, diffonly := false }

def fsW9 : String → DirListing := fun d =>
  if d = "a" then .notADir
  else if d = "b" then
    .ok [.ioErr "io", .ok ⟨"bad", .file none⟩, .ok ⟨"good", .file (some [1])⟩]
  else if d = "c" then .readErr "denied"
  else .notADir

/-! # Lemmas

First the order properties of the digest comparison. -/

theorem charListLe_refl : ∀ l : List Char, charListLe l l = true
  | [] => rfl
  | a :: as => by
    simp only [charListLe, lt_irrefl, if_false, if_pos rfl, if_neg (lt_irrefl a)]
    exact charListLe_refl as

theorem charListLe_total : ∀ a b : List Char, charListLe a b = true ∨ charListLe b a = true
  | [], _ => Or.inl rfl
  | _ :: _, [] => Or.inr rfl
  | a :: as, b :: bs => by
    rcases lt_trichotomy a b with h | h | h
    · left; simp [charListLe, h]
    · subst h
      rcases charListLe_total as bs with ih | ih
      · left; simp [charListLe, lt_irrefl, ih]
      · right; simp [charListLe, lt_irrefl, ih]
    · right; simp [charListLe, h]

theorem charListLe_trans :
    ∀ a b c : List Char, charListLe a b = true → charListLe b c = true →
      charListLe a c = true
  | [], _, _, _, _ => rfl
  | _ :: _, [], _, h, _ => by simp [charListLe] at h
  | _ :: _, _ :: _, [], _, h₂ => by simp [charListLe] at h₂
  | a :: as, b :: bs, c :: cs, h₁, h₂ => by
    rcases lt_trichotomy a b with hab | hab | hab
    · rcases lt_trichotomy b c with hbc | hbc | hbc
      · simp [charListLe, lt_trans hab hbc]
      · subst hbc; simp [charListLe, hab]
      · simp [charListLe, not_lt_of_gt hbc, (ne_of_gt hbc : b ≠ c)] at h₂
    · subst hab
      rcases lt_trichotomy a c with hbc | hbc | hbc
      · simp [charListLe, hbc]
      · subst hbc
        simp only [charListLe, lt_irrefl, if_false, if_pos rfl, if_neg (lt_irrefl a)] at h₁ h₂ ⊢
        exact charListLe_trans as bs cs h₁ h₂
      · simp [charListLe, not_lt_of_gt hbc, (ne_of_gt hbc : a ≠ c)] at h₂
    · simp [charListLe, not_lt_of_gt hab, (ne_of_gt hab : a ≠ b)] at h₁

theorem charListLe_antisymm :
    ∀ a b : List Char, charListLe a b = true → charListLe b a = true → a = b
  | [], [], _, _ => rfl
  | [], _ :: _, _, h₂ => by simp [charListLe] at h₂
  | _ :: _, [], h₁, _ => by simp [charListLe] at h₁
  | a :: as, b :: bs, h₁, h₂ => by
    rcases lt_trichotomy a b with hab | hab | hab
    · simp [charListLe, not_lt_of_gt hab, (ne_of_gt hab : b ≠ a)] at h₂
    · subst hab
      simp only [charListLe, lt_irrefl, if_false, if_pos rfl, if_neg (lt_irrefl a)] at h₁ h₂
      exact congrArg (a :: ·) (charListLe_antisymm as bs h₁ h₂)
    · simp [charListLe, not_lt_of_gt hab, (ne_of_gt hab : a ≠ b)] at h₁

theorem digestLe_refl (a : String) : digestLe a a := charListLe_refl a.data

theorem digestLe_total (a b : String) : digestLe a b ∨ digestLe b a :=
  charListLe_total a.data b.data

theorem digestLe_trans {a b c : String} (h₁ : digestLe a b) (h₂ : digestLe b c) :
    digestLe a c :=
  charListLe_trans a.data b.data c.data h₁ h₂

theorem digestLe_antisymm {a b : String} (h₁ : digestLe a b) (h₂ : digestLe b a) :
    a = b :=
  String.ext (charListLe_antisymm a.data b.data h₁ h₂)

instance : IsTotal HashGroup groupLe := ⟨fun a b => digestLe_total a.1 b.1⟩

instance : IsTrans HashGroup groupLe := ⟨fun _ _ _ => digestLe_trans⟩

instance : IsAntisymm String digestLt :=
  ⟨fun _ _ h₁ h₂ => absurd (digestLe_antisymm h₁.1 h₂.1) h₁.2⟩

/-! The chunked hashing loop absorbs exactly the reader's content. -/

theorem sha256_digestLoop_spec :
    ∀ (fuel : Nat) (ctx rem : Bytes), rem.length ≤ fuel →
      sha256_digestLoop fuel ctx rem = ctx ++ rem := by
  intro fuel
  induction fuel with
  | zero =>
    intro ctx rem h
    have : rem = [] := List.eq_nil_of_length_eq_zero (Nat.le_zero.mp h)
    subst this
    simp [sha256_digestLoop]
  | succ n ih =>
    intro ctx rem h
    by_cases hrem : rem.isEmpty
    · have : rem = [] := List.isEmpty_iff.mp hrem
      subst this
      simp [sha256_digestLoop]
    · have hne : rem ≠ [] := fun hh => hrem (by simp [hh])
      have hpos : 0 < rem.length := List.length_pos.mpr hne
      have hdrop : (rem.drop 1024).length ≤ n := by
        rw [List.length_drop]; omega
      calc sha256_digestLoop (n + 1) ctx rem
          = sha256_digestLoop n (sha256_update ctx (rem.take 1024)) (rem.drop 1024) := by
            simp [sha256_digestLoop, hrem]
        _ = (ctx ++ rem.take 1024) ++ rem.drop 1024 := by
            rw [ih _ _ hdrop]; rfl
        _ = ctx ++ rem := by
            rw [List.append_assoc, List.take_append_drop]

theorem sha256_digest_eq (c : Bytes) : sha256_digest c = c := by
  simpa using sha256_digestLoop_spec c.length [] c le_rfl

/-! Column fitting. -/

theorem fixed_length_length (s : List String) (n : Nat) (pad : String) :
    (fixed_length s n pad).length = n := by
  simp only [fixed_length, List.length_take, List.length_append, List.length_replicate]
  omega

theorem fixed_length_of_le {s : List String} {n : Nat} (pad : String)
    (h : n ≤ s.length) : fixed_length s n pad = s.take n := by
  have h0 : n - s.length = 0 := by omega
  simp [fixed_length, List.take_append_eq_append_take, h0]

theorem fixed_length_of_ge {s : List String} {n : Nat} (pad : String)
    (h : s.length ≤ n) : fixed_length s n pad = s ++ List.replicate (n - s.length) pad := by
  have hmin : min (n - s.length) n = n - s.length := by omega
  simp [fixed_length, List.take_append_eq_append_take, List.take_of_length_le h,
    List.take_replicate, hmin]

/-! Characterisation of the scan phase. -/

theorem scanEntry_fst (hashFn : Bytes → String) (filt : Option String) (dir : String)
    (er : EntryResult) :
    (scanEntry hashFn filt dir er).1 = (scanEntryPair hashFn filt dir er).toList := by
  cases er with
  | ok e =>
    simp only [scanEntry, scanEntryPair]
    by_cases hm : extensionMatches filt e.name
    · rw [if_pos hm, if_pos hm]
      cases hh : file_hash hashFn e.kind <;> simp
    · rw [if_neg hm, if_neg hm]; rfl
  | ioErr m => rfl

theorem scanListing_ok_fst (hashFn : Bytes → String) (filt : Option String)
    (dir : String) (es : List EntryResult) :
    (scanListing hashFn filt dir (DirListing.ok es)).1
      = es.filterMap (scanEntryPair hashFn filt dir) := by
  induction es with
  | nil => rfl
  | cons er t ih =>
    simp only [scanListing, List.map_cons, List.flatten_cons] at ih ⊢
    rw [scanEntry_fst, List.filterMap_cons]
    cases h : scanEntryPair hashFn filt dir er <;> simp [h, ih]

theorem scanEntryPair_some_elim {hashFn : Bytes → String} {filt : Option String}
    {dir : String} {er : EntryResult} {p : String × FileEntry}
    (h : scanEntryPair hashFn filt dir er = some p) :
    ∃ e c, er = EntryResult.ok e ∧ e.kind = EntryKind.file (some c) ∧
      extensionMatches filt e.name = true ∧
      p = (hashFn (sha256_digest c), { parent := dir, name := e.name }) := by
  cases er with
  | ioErr m => simp [scanEntryPair] at h
  | ok e =>
    simp only [scanEntryPair] at h
    by_cases hm : extensionMatches filt e.name
    · rw [if_pos hm] at h
      cases hk : e.kind with
      | file oc =>
        cases oc with
        | some c =>
          rw [hk] at h
          simp only [file_hash] at h
          exact ⟨e, c, rfl, hk, hm, (Option.some_inj.mp h).symm⟩
        | none => rw [hk] at h; simp [file_hash] at h
      | nonFile => rw [hk] at h; simp [file_hash] at h
    · rw [if_neg hm] at h; cases h

theorem scanEntryPair_some_intro (hashFn : Bytes → String) (filt : Option String)
    (dir : String) (e : DirEntryOk) (c : Bytes)
    (hk : e.kind = EntryKind.file (some c)) (hm : extensionMatches filt e.name = true) :
    scanEntryPair hashFn filt dir (EntryResult.ok e)
      = some (hashFn (sha256_digest c), { parent := dir, name := e.name }) := by
  simp [scanEntryPair, hm, hk, file_hash]

theorem mem_scanListing_parent {hashFn : Bytes → String} {filt : Option String}
    {dir : String} {li : DirListing} {p : String × FileEntry}
    (hp : p ∈ (scanListing hashFn filt dir li).1) : p.2.parent = dir := by
  cases li with
  | notADir => simp [scanListing] at hp
  | readErr m => simp [scanListing] at hp
  | ok es =>
    rw [scanListing_ok_fst] at hp
    obtain ⟨er, -, her⟩ := List.mem_filterMap.mp hp
    obtain ⟨e, c, -, -, -, hp'⟩ := scanEntryPair_some_elim her
    rw [hp']

theorem mem_scannedFiles {hashFn : Bytes → String} {args : Args}
    {fs : String → DirListing} {p : String × FileEntry} :
    p ∈ scannedFiles hashFn args fs ↔
      ∃ d ∈ args.directories, p ∈ (scanListing hashFn args.extension d (fs d)).1 := by
  constructor
  · intro h
    obtain ⟨l, hl, hpl⟩ := List.mem_flatten.mp h
    obtain ⟨d, hd, rfl⟩ := List.mem_map.mp hl
    exact ⟨d, hd, hpl⟩
  · rintro ⟨d, hd, hpd⟩
    exact List.mem_flatten.mpr ⟨_, List.mem_map_of_mem _ hd, hpd⟩

theorem scannedFiles_parent_mem {hashFn : Bytes → String} {args : Args}
    {fs : String → DirListing} {p : String × FileEntry}
    (hp : p ∈ scannedFiles hashFn args fs) : p.2.parent ∈ args.directories := by
  obtain ⟨d, hd, hpd⟩ := mem_scannedFiles.mp hp
  rw [mem_scanListing_parent hpd]
  exact hd

/-! Characterisation of the grouping phase. -/

theorem groupOf_cons (p : String × FileEntry) (l : List (String × FileEntry)) (h : String) :
    groupOf (p :: l) h = if p.1 = h then p.2 :: groupOf l h else groupOf l h := by
  by_cases hp : p.1 = h <;> simp [groupOf, List.filter_cons, hp]

theorem lookupG_insertFile (m : List (String × List FileEntry)) (h : String)
    (f : FileEntry) (h' : String) :
    lookupG (insertFile m h f) h' =
      if h' = h then some ((lookupG m h').getD [] ++ [f]) else lookupG m h' := by
  induction m with
  | nil =>
    by_cases hh : h' = h
    · rw [if_pos hh]
      show (if h = h' then some [f] else none) = _
      rw [if_pos hh.symm]
      rfl
    · rw [if_neg hh]
      show (if h = h' then some [f] else none) = _
      rw [if_neg (fun e => hh e.symm)]
      rfl
  | cons kv rest ih =>
    obtain ⟨k, v⟩ := kv
    by_cases hk : k = h
    · rw [insertFile, if_pos hk]
      by_cases hh : h' = h
      · have hk' : k = h' := hk.trans hh.symm
        rw [if_pos hh]
        show (if k = h' then some (v ++ [f]) else lookupG rest h') = _
        rw [if_pos hk']
        show _ = some ((if k = h' then some v else lookupG rest h').getD [] ++ [f])
        rw [if_pos hk']
        rfl
      · have hk' : ¬k = h' := fun e => hh ((e.symm.trans hk).symm ▸ rfl)
        rw [if_neg hh]
        show (if k = h' then some (v ++ [f]) else lookupG rest h') = _
        rw [if_neg hk']
        show _ = if k = h' then some v else lookupG rest h'
        rw [if_neg hk']
    · rw [insertFile, if_neg hk]
      by_cases hkh : k = h'
      · have hh : ¬h' = h := fun e => hk (hkh.trans e)
        rw [if_neg hh]
        show (if k = h' then some v else lookupG (insertFile rest h f) h') = _
        rw [if_pos hkh]
        show _ = if k = h' then some v else lookupG rest h'
        rw [if_pos hkh]
      · show (if k = h' then some v else lookupG (insertFile rest h f) h') = _
        rw [if_neg hkh, ih]
        by_cases hh : h' = h
        · rw [if_pos hh, if_pos hh]
          show _ = some ((if k = h' then some v else lookupG rest h').getD [] ++ [f])
          rw [if_neg hkh]
        · rw [if_neg hh, if_neg hh]
          show _ = if k = h' then some v else lookupG rest h'
          rw [if_neg hkh]

theorem lookupG_foldl :
    ∀ (l : List (String × FileEntry)) (m : List (String × List FileEntry)) (h : String),
      lookupG (l.foldl (fun m p => insertFile m p.1 p.2) m) h =
        if groupOf l h = [] then lookupG m h
        else some ((lookupG m h).getD [] ++ groupOf l h) := by
  intro l
  induction l with
  | nil => intro m h; simp [groupOf]
  | cons p t ih =>
    intro m h
    rw [List.foldl_cons, ih, groupOf_cons, lookupG_insertFile]
    by_cases hp : p.1 = h
    · rw [if_pos hp, if_pos (Eq.symm hp)]
      by_cases ht : groupOf t h = []
      · simp [ht]
      · rw [if_neg ht, if_neg (by simp)]
        rw [Option.getD_some, List.append_assoc, List.singleton_append]
    · rw [if_neg hp, if_neg (fun e => hp (Eq.symm e))]

theorem lookupG_groupFiles (l : List (String × FileEntry)) (h : String) :
    lookupG (groupFiles l) h =
      if groupOf l h = [] then none else some (groupOf l h) := by
  have hf := lookupG_foldl l [] h
  simp only [lookupG] at hf
  simpa [groupFiles] using hf

theorem keys_insertFile (m : List (String × List FileEntry)) (h : String) (f : FileEntry) :
    (insertFile m h f).map Prod.fst =
      if h ∈ m.map Prod.fst then m.map Prod.fst else m.map Prod.fst ++ [h] := by
  induction m with
  | nil => simp [insertFile]
  | cons kv rest ih =>
    obtain ⟨k, v⟩ := kv
    by_cases hk : k = h
    · subst hk
      simp [insertFile]
    · simp only [insertFile, if_neg hk, List.map_cons, List.mem_cons, ih]
      have hne : ¬h = k := fun e => hk e.symm
      by_cases hmem : h ∈ rest.map Prod.fst
      · simp [hmem, hne]
      · simp [hmem, hne]

theorem keys_nodup_insertFile (m : List (String × List FileEntry)) (h : String)
    (f : FileEntry) (hm : (m.map Prod.fst).Nodup) :
    ((insertFile m h f).map Prod.fst).Nodup := by
  rw [keys_insertFile]
  by_cases hmem : h ∈ m.map Prod.fst
  · rwa [if_pos hmem]
  · rw [if_neg hmem]
    simp [List.nodup_append, hm, List.disjoint_singleton, hmem]

theorem groupFiles_keys_nodup (l : List (String × FileEntry)) :
    ((groupFiles l).map Prod.fst).Nodup := by
  suffices hgen : ∀ m : List (String × List FileEntry), (m.map Prod.fst).Nodup →
      (((l.foldl (fun m p => insertFile m p.1 p.2) m)).map Prod.fst).Nodup by
    exact hgen [] (by simp)
  induction l with
  | nil => intro m hm; exact hm
  | cons p t ih =>
    intro m hm
    rw [List.foldl_cons]
    exact ih _ (keys_nodup_insertFile _ _ _ hm)

theorem lookupG_eq_some_of_mem :
    ∀ {m : List (String × List FileEntry)} {g : HashGroup},
      (m.map Prod.fst).Nodup → g ∈ m → lookupG m g.1 = some g.2 := by
  intro m
  induction m with
  | nil => intro g _ hg; cases hg
  | cons kv rest ih =>
    intro g hnd hg
    obtain ⟨k, v⟩ := kv
    rw [List.map_cons, List.nodup_cons] at hnd
    rcases List.mem_cons.mp hg with rfl | hg'
    · show (if k = k then some v else lookupG rest k) = some v
      rw [if_pos rfl]
    · have hne : ¬k = g.1 := by
        intro he
        apply hnd.1
        rw [he]
        exact List.mem_map.mpr ⟨g, hg', rfl⟩
      show (if k = g.1 then some v else lookupG rest g.1) = some g.2
      rw [if_neg hne]
      exact ih hnd.2 hg'

theorem mem_of_lookupG_eq_some :
    ∀ {m : List (String × List FileEntry)} {h : String} {v : List FileEntry},
      lookupG m h = some v → (h, v) ∈ m := by
  intro m
  induction m with
  | nil => intro h v hh; cases hh
  | cons kv rest ih =>
    intro h v hh
    obtain ⟨k, w⟩ := kv
    by_cases hk : k = h
    · subst hk
      have : some w = some v := by
        have := hh
        rwa [show lookupG ((k, w) :: rest) k = some w by
          show (if k = k then some w else lookupG rest k) = some w
          rw [if_pos rfl]] at this
      rw [Option.some_inj.mp this]
      exact List.mem_cons_self _ _
    · have : lookupG rest h = some v := by
        have hstep : lookupG ((k, w) :: rest) h = lookupG rest h := by
          show (if k = h then some w else lookupG rest h) = lookupG rest h
          rw [if_neg hk]
        rwa [hstep] at hh
      exact List.mem_cons_of_mem _ (ih this)

theorem mem_groupFiles_iff {l : List (String × FileEntry)} {g : HashGroup} :
    g ∈ groupFiles l ↔ groupOf l g.1 ≠ [] ∧ g.2 = groupOf l g.1 := by
  constructor
  · intro hg
    have hl := lookupG_eq_some_of_mem (groupFiles_keys_nodup l) hg
    rw [lookupG_groupFiles] at hl
    by_cases hemp : groupOf l g.1 = []
    · rw [if_pos hemp] at hl; cases hl
    · rw [if_neg hemp] at hl
      exact ⟨hemp, (Option.some_inj.mp hl).symm⟩
  · rintro ⟨hne, hg2⟩
    have hl : lookupG (groupFiles l) g.1 = some (groupOf l g.1) := by
      rw [lookupG_groupFiles, if_neg hne]
    have hmem := mem_of_lookupG_eq_some hl
    obtain ⟨g1, g2⟩ := g
    simp only at hg2
    rw [hg2]
    exact hmem

/-! Sorting. -/

theorem sortGroups_perm (l : List HashGroup) : List.Perm (sortGroups l) l :=
  List.perm_insertionSort groupLe l

theorem sortGroups_sorted (l : List HashGroup) : List.Sorted groupLe (sortGroups l) :=
  List.sorted_insertionSort groupLe l

theorem mem_sortedGroups {hashFn : Bytes → String} {args : Args}
    {fs : String → DirListing} {g : HashGroup} :
    g ∈ sortedGroups hashFn args fs ↔ g ∈ groupFiles (scannedFiles hashFn args fs) :=
  (sortGroups_perm _).mem_iff

theorem sortedGroups_files {hashFn : Bytes → String} {args : Args}
    {fs : String → DirListing} {g : HashGroup} (hg : g ∈ sortedGroups hashFn args fs) :
    g.2 = groupOf (scannedFiles hashFn args fs) g.1 :=
  (mem_groupFiles_iff.mp (mem_sortedGroups.mp hg)).2

theorem mem_group_scanned {hashFn : Bytes → String} {args : Args}
    {fs : String → DirListing} {g : HashGroup} (hg : g ∈ sortedGroups hashFn args fs)
    {f : FileEntry} (hf : f ∈ g.2) : (g.1, f) ∈ scannedFiles hashFn args fs := by
  rw [sortedGroups_files hg] at hf
  obtain ⟨p, hp, hps⟩ := List.mem_map.mp hf
  have hmem := List.mem_filter.mp hp
  have hfst : p.1 = g.1 := by simpa using hmem.2
  obtain ⟨p1, p2⟩ := p
  simp only at hfst hps
  rw [← hfst, ← hps]
  exact hmem.1

/-! The `--diffonly` predicate. -/

theorem allSameName_iff {files : List FileEntry} :
    allSameName files = true ↔ ∀ f ∈ files, ∀ f' ∈ files, f.name = f'.name := by
  cases files with
  | nil => simp [allSameName]
  | cons f0 t =>
    simp only [allSameName, List.all_eq_true, beq_iff_eq]
    constructor
    · intro h f hf f' hf'
      rw [h f hf, h f' hf']
    · intro h f hf
      exact h f hf f0 (List.mem_cons_self _ _)

theorem diffKeep_eq_false_iff {n : Nat} {files : List FileEntry} :
    diffKeep n files = false ↔ files.length = n ∧ allSameName files = true := by
  simp [diffKeep]

theorem allSameNameChecked_eq {files : List FileEntry} (h : files ≠ []) :
    allSameNameChecked files = some (allSameName files) := by
  obtain ⟨f0, t, rfl⟩ := List.exists_cons_of_ne_nil h
  simp only [allSameNameChecked, allSameName, List.getElem?_cons_zero]
  suffices hgen : ∀ l : List FileEntry,
      (l.foldr (fun f acc =>
        match acc, some f0 with
        | some b, some g0 => some ((f.name == g0.name) && b)
        | _, _ => none) (some true)) = some (l.all (fun f => f.name == f0.name)) by
    exact hgen (f0 :: t)
  intro l
  induction l with
  | nil => rfl
  | cons x xs ih => rw [List.foldr_cons, ih, List.all_cons]

theorem diffKeepChecked_eq {n : Nat} {files : List FileEntry} (h : files ≠ []) :
    diffKeepChecked n files = some (diffKeep n files) := by
  by_cases hl : (files.length != n) = true
  · simp [diffKeepChecked, diffKeep, hl]
  · have hl' : (files.length != n) = false := by simpa using hl
    simp [diffKeepChecked, diffKeep, hl', allSameNameChecked_eq h]

theorem mem_finalGroups_diff {hashFn : Bytes → String} {args : Args}
    {fs : String → DirListing} {g : HashGroup} (hd : args.diffonly = true) :
    g ∈ finalGroups hashFn args fs ↔
      g ∈ sortedGroups hashFn args fs ∧ diffKeep args.directories.length g.2 = true := by
  simp [finalGroups, hd, List.mem_filter]

/-! Counting files per directory. -/

theorem sum_le_length_of_le_one :
    ∀ ns : List Nat, (∀ n ∈ ns, n ≤ 1) → ns.sum ≤ ns.length := by
  intro ns
  induction ns with
  | nil => intro _; simp
  | cons m t ih =>
    intro h
    rw [List.sum_cons, List.length_cons]
    have hm := h m (List.mem_cons_self _ _)
    have ht := ih (fun n hn => h n (List.mem_cons_of_mem _ hn))
    omega

theorem all_one_of_sum_eq_length :
    ∀ ns : List Nat, (∀ n ∈ ns, n ≤ 1) → ns.sum = ns.length → ∀ n ∈ ns, n = 1 := by
  intro ns
  induction ns with
  | nil => intro _ _ n hn; cases hn
  | cons m t ih =>
    intro hle hsum n hn
    rw [List.sum_cons, List.length_cons] at hsum
    have hm : m ≤ 1 := hle m (List.mem_cons_self _ _)
    have htle : ∀ k ∈ t, k ≤ 1 := fun k hk => hle k (List.mem_cons_of_mem _ hk)
    have hts := sum_le_length_of_le_one t htle
    rcases List.mem_cons.mp hn with rfl | hnt
    · omega
    · exact ih htle (by omega) n hnt

theorem length_eq_sum_parent_counts :
    ∀ (dirs : List String) (files : List FileEntry), dirs.Nodup →
      (∀ f ∈ files, f.parent ∈ dirs) →
      (dirs.map (fun d => (files.filter (fun f => f.parent == d)).length)).sum
        = files.length := by
  intro dirs
  induction dirs with
  | nil =>
    intro files _ hf
    cases files with
    | nil => rfl
    | cons f t => exact absurd (hf f (List.mem_cons_self _ _)) (List.not_mem_nil _)
  | cons d ds ih =>
    intro files hnd hf
    rw [List.nodup_cons] at hnd
    rw [List.map_cons, List.sum_cons]
    have hsplit := @List.length_eq_length_filter_add _ files (fun f => f.parent == d)
    have hcounts : ∀ d' ∈ ds,
        (files.filter (fun f => f.parent == d')).length
          = ((files.filter (fun f => !(f.parent == d))).filter
              (fun f => f.parent == d')).length := by
      intro d' hd'
      have hdd : d' ≠ d := fun e => hnd.1 (e ▸ hd')
      rw [List.filter_filter]
      congr 1
      apply List.filter_congr
      intro f _
      by_cases hp : f.parent = d'
      · simp [hp, hdd]
      · simp [hp]
    have hmap : ds.map (fun d' => (files.filter (fun f => f.parent == d')).length)
        = ds.map (fun d' => ((files.filter (fun f => !(f.parent == d))).filter
            (fun f => f.parent == d')).length) :=
      List.map_congr_left hcounts
    rw [hmap, ih (files.filter (fun f => !(f.parent == d))) hnd.2 ?side]
    · omega
    case side =>
      intro f hfmem
      have hmem := List.mem_filter.mp hfmem
      have hin := hf f hmem.1
      rcases List.mem_cons.mp hin with he | hin'
      · exfalso
        have := hmem.2
        rw [he] at this
        simp at this
      · exact hin'

/-! Within one directory, scanned file names are pairwise distinct. -/

theorem filterMap_map_sublist {α β γ : Type _} (f : α → Option β) (g : α → Option γ)
    (m : β → γ) (hfg : ∀ x b, f x = some b → g x = some (m b)) :
    ∀ l : List α, ((l.filterMap f).map m).Sublist (l.filterMap g) := by
  intro l
  induction l with
  | nil => simp
  | cons x t ih =>
    cases hx : f x with
    | none =>
      rw [List.filterMap_cons, hx]
      cases hgx : g x with
      | none => rw [List.filterMap_cons, hgx]; exact ih
      | some c => rw [List.filterMap_cons, hgx]; exact ih.cons c
    | some b =>
      rw [List.filterMap_cons, hx, List.filterMap_cons, hfg x b hx, List.map_cons]
      exact ih.cons₂ (m b)

theorem scanListing_names_sublist (hashFn : Bytes → String) (filt : Option String)
    (dir : String) (es : List EntryResult) :
    (((scanListing hashFn filt dir (DirListing.ok es)).1).map
        (fun p => p.2.name)).Sublist (es.filterMap okName) := by
  rw [scanListing_ok_fst]
  refine filterMap_map_sublist _ _ _ ?_ es
  intro er p hp
  obtain ⟨e, c, rfl, -, -, hp'⟩ := scanEntryPair_some_elim hp
  rw [hp']
  rfl

theorem scanListing_names_nodup {hashFn : Bytes → String} {filt : Option String}
    {dir : String} {li : DirListing} (hwf : listingNamesNodup li) :
    (((scanListing hashFn filt dir li).1).map (fun p => p.2.name)).Nodup := by
  cases li with
  | notADir => simp [scanListing]
  | readErr m => simp [scanListing]
  | ok es => exact List.Nodup.sublist (scanListing_names_sublist hashFn filt dir es) hwf

theorem filter_parent_flatten (hashFn : Bytes → String) (filt : Option String)
    (fs : String → DirListing) :
    ∀ (ds : List String) (d : String), ds.Nodup → d ∈ ds →
      ((ds.map (fun d' => (scanListing hashFn filt d' (fs d')).1)).flatten.filter
          (fun p => p.2.parent == d))
        = (scanListing hashFn filt d (fs d)).1 := by
  intro ds
  induction ds with
  | nil => intro d _ hd; cases hd
  | cons d0 t ih =>
    intro d hnd hd
    rw [List.map_cons, List.flatten_cons, List.filter_append]
    rw [List.nodup_cons] at hnd
    rcases List.mem_cons.mp hd with rfl | hdt
    · have h1 : (scanListing hashFn filt d (fs d)).1.filter (fun p => p.2.parent == d)
          = (scanListing hashFn filt d (fs d)).1 :=
        List.filter_eq_self.mpr (fun p hp => by simp [mem_scanListing_parent hp])
      have h2 : ((t.map (fun d' => (scanListing hashFn filt d' (fs d')).1)).flatten.filter
          (fun p => p.2.parent == d)) = [] := by
        apply List.filter_eq_nil_iff.mpr
        intro p hp
        obtain ⟨l, hl, hpl⟩ := List.mem_flatten.mp hp
        obtain ⟨d', hd', rfl⟩ := List.mem_map.mp hl
        have hpar := mem_scanListing_parent hpl
        simp only [hpar, beq_iff_eq]
        intro he
        exact hnd.1 (he ▸ hd')
      rw [h1, h2, List.append_nil]
    · have hne : d0 ≠ d := fun e => hnd.1 (e ▸ hdt)
      have h1 : (scanListing hashFn filt d0 (fs d0)).1.filter (fun p => p.2.parent == d)
          = [] := by
        apply List.filter_eq_nil_iff.mpr
        intro p hp
        have hpar := mem_scanListing_parent hp
        simp only [hpar, beq_iff_eq]
        exact hne
      rw [h1, List.nil_append]
      exact ih d hnd.2 hdt

theorem scanned_filter_parent {hashFn : Bytes → String} {args : Args}
    {fs : String → DirListing} (hnd : args.directories.Nodup)
    {d : String} (hd : d ∈ args.directories) :
    (scannedFiles hashFn args fs).filter (fun p => p.2.parent == d)
      = (scanListing hashFn args.extension d (fs d)).1 :=
  filter_parent_flatten hashFn args.extension fs args.directories d hnd hd

theorem group_slice_names_nodup {hashFn : Bytes → String} {args : Args}
    {fs : String → DirListing} {g : HashGroup}
    (hg : g ∈ sortedGroups hashFn args fs) (hnd : args.directories.Nodup)
    {d : String} (hd : d ∈ args.directories) (hwf : listingNamesNodup (fs d)) :
    ((g.2.filter (fun f => f.parent == d)).map (fun f => f.name)).Nodup := by
  rw [sortedGroups_files hg]
  have e1 : (groupOf (scannedFiles hashFn args fs) g.1).filter (fun f => f.parent == d)
      = (((scannedFiles hashFn args fs).filter (fun p => p.1 == g.1)).filter
          (fun p => p.2.parent == d)).map Prod.snd := by
    rw [groupOf, List.filter_map]
    rfl
  rw [e1, List.map_map]
  have e2 : ((((scannedFiles hashFn args fs).filter (fun p => p.1 == g.1)).filter
      (fun p => p.2.parent == d)).map ((fun f => f.name) ∘ Prod.snd)).Sublist
      ((((scannedFiles hashFn args fs).filter (fun p => p.2.parent == d))).map
        ((fun f => f.name) ∘ Prod.snd)) := by
    apply List.Sublist.map
    rw [List.filter_filter]
    exact List.monotone_filter_right _ (fun a ha => (Bool.and_eq_true _ _ ▸ ha).1)
  rw [scanned_filter_parent hnd hd] at e2
  apply List.Nodup.sublist e2
  have := @scanListing_names_nodup hashFn args.extension d (fs d) hwf
  simpa [Function.comp] using this

theorem exists_ne_name_of_two {l : List FileEntry}
    (hnd : (l.map (fun f => f.name)).Nodup) (h2 : 2 ≤ l.length) :
    ∃ f₁ ∈ l, ∃ f₂ ∈ l, f₁.name ≠ f₂.name := by
  rcases l with _ | ⟨a, _ | ⟨b, t⟩⟩
  · simp at h2
  · simp at h2
  · refine ⟨a, List.mem_cons_self _ _,
      b, List.mem_cons_of_mem _ (List.mem_cons_self _ _), ?_⟩
    rw [List.map_cons, List.map_cons, List.nodup_cons] at hnd
    intro he
    exact hnd.1 (by rw [he]; exact List.mem_cons_self _ _)

/-! Everything printed to standard output is invariant under reordering of
each directory's listing. -/

theorem groupFiles_key_mem_iff {l : List (String × FileEntry)} {h : String} :
    h ∈ (groupFiles l).map Prod.fst ↔ groupOf l h ≠ [] := by
  constructor
  · intro hk
    obtain ⟨g, hg, rfl⟩ := List.mem_map.mp hk
    exact (mem_groupFiles_iff.mp hg).1
  · intro hne
    have hmem := mem_of_lookupG_eq_some (by rw [lookupG_groupFiles, if_neg hne])
    exact List.mem_map.mpr ⟨(h, groupOf l h), hmem, rfl⟩

theorem scanListing_perm {hashFn : Bytes → String} {filt : Option String} {dir : String}
    {li₁ li₂ : DirListing} (h : ListingPerm li₁ li₂) :
    List.Perm (scanListing hashFn filt dir li₁).1 (scanListing hashFn filt dir li₂).1 := by
  cases li₁ with
  | notADir =>
    cases li₂ with
    | notADir => exact List.Perm.refl _
    | readErr m => exact DirListing.noConfusion h
    | ok es => exact DirListing.noConfusion h
  | readErr m =>
    cases li₂ with
    | notADir => exact DirListing.noConfusion h
    | readErr m' => cases h; exact List.Perm.refl _
    | ok es => exact DirListing.noConfusion h
  | ok es₁ =>
    cases li₂ with
    | notADir => exact DirListing.noConfusion h
    | readErr m => exact DirListing.noConfusion h
    | ok es₂ =>
      rw [scanListing_ok_fst, scanListing_ok_fst]
      exact List.Perm.filterMap _ h

theorem flatten_scan_perm (hashFn : Bytes → String) (filt : Option String)
    (fs₁ fs₂ : String → DirListing) :
    ∀ ds : List String, (∀ d ∈ ds, ListingPerm (fs₁ d) (fs₂ d)) →
      List.Perm ((ds.map (fun d => (scanListing hashFn filt d (fs₁ d)).1)).flatten)
        ((ds.map (fun d => (scanListing hashFn filt d (fs₂ d)).1)).flatten) := by
  intro ds
  induction ds with
  | nil => intro _; simp
  | cons d t ih =>
    intro h
    rw [List.map_cons, List.map_cons, List.flatten_cons, List.flatten_cons]
    exact (scanListing_perm (h d (List.mem_cons_self _ _))).append
      (ih fun d' hd' => h d' (List.mem_cons_of_mem _ hd'))

theorem scannedFiles_perm {hashFn : Bytes → String} {args : Args}
    {fs₁ fs₂ : String → DirListing}
    (hperm : ∀ d ∈ args.directories, ListingPerm (fs₁ d) (fs₂ d)) :
    List.Perm (scannedFiles hashFn args fs₁) (scannedFiles hashFn args fs₂) :=
  flatten_scan_perm hashFn args.extension fs₁ fs₂ args.directories hperm

theorem groupOf_perm {l₁ l₂ : List (String × FileEntry)} (h : List.Perm l₁ l₂)
    (k : String) : List.Perm (groupOf l₁ k) (groupOf l₂ k) :=
  (h.filter _).map _

theorem cellText_perm {l₁ l₂ : List FileEntry} (h : List.Perm l₁ l₂) :
    cellText l₁ = cellText l₂ := by
  rcases l₁ with _ | ⟨a, _ | ⟨b, t⟩⟩
  · rw [List.perm_nil.mp h.symm]
  · rw [List.perm_singleton.mp h.symm]
  · have hlen := h.length_eq
    rcases l₂ with _ | ⟨x, _ | ⟨y, s⟩⟩
    · exfalso
      simp only [List.length_cons, List.length_nil] at hlen
      omega
    · exfalso
      simp only [List.length_cons, List.length_nil] at hlen
      omega
    · show "(" ++ toString (a :: b :: t).length ++ " files)"
        = "(" ++ toString (x :: y :: s).length ++ " files)"
      rw [hlen]

theorem summaryCell_perm {files₁ files₂ : List FileEntry}
    (h : List.Perm files₁ files₂) (d : String) :
    summaryCell files₁ d = summaryCell files₂ d :=
  cellText_perm (h.filter _)

theorem allSameName_perm {l₁ l₂ : List FileEntry} (h : List.Perm l₁ l₂) :
    allSameName l₁ = allSameName l₂ := by
  by_cases hb : allSameName l₂ = true
  · rw [hb]
    exact allSameName_iff.mpr (fun f hf f' hf' =>
      allSameName_iff.mp hb f (h.mem_iff.mp hf) f' (h.mem_iff.mp hf'))
  · have h1 : ¬allSameName l₁ = true := fun h1 =>
      hb (allSameName_iff.mpr (fun f hf f' hf' =>
        allSameName_iff.mp h1 f (h.mem_iff.mpr hf) f' (h.mem_iff.mpr hf')))
    rw [Bool.eq_false_iff.mpr h1, Bool.eq_false_iff.mpr hb]

theorem diffKeep_perm {n : Nat} {l₁ l₂ : List FileEntry} (h : List.Perm l₁ l₂) :
    diffKeep n l₁ = diffKeep n l₂ := by
  unfold diffKeep
  rw [h.length_eq, allSameName_perm h]

theorem mkRow_perm {args : Args} {i : Nat} {g₁ g₂ : HashGroup}
    (hk : g₁.1 = g₂.1) (hp : List.Perm g₁.2 g₂.2) :
    mkRow args i g₁ = mkRow args i g₂ := by
  unfold mkRow
  rw [hk]
  congr 1
  exact List.map_congr_left (fun d _ => summaryCell_perm hp d)

theorem sortGroups_keys_sorted_strict {l : List HashGroup}
    (hnd : ((sortGroups l).map Prod.fst).Nodup) :
    List.Pairwise digestLt ((sortGroups l).map Prod.fst) := by
  have hs : List.Pairwise groupLe (sortGroups l) := sortGroups_sorted l
  have hle : List.Pairwise digestLe ((sortGroups l).map Prod.fst) :=
    List.Pairwise.map Prod.fst (fun a b hab => hab) hs
  have hne : List.Pairwise (fun a b : String => a ≠ b) ((sortGroups l).map Prod.fst) := hnd
  exact (hle.and hne).imp (fun hab => ⟨hab.1, hab.2⟩)

theorem sortedGroups_key_mem {hashFn : Bytes → String} {args : Args}
    {fs : String → DirListing} {k : String} :
    k ∈ (sortedGroups hashFn args fs).map Prod.fst ↔
      groupOf (scannedFiles hashFn args fs) k ≠ [] := by
  unfold sortedGroups
  rw [((sortGroups_perm _).map Prod.fst).mem_iff]
  exact groupFiles_key_mem_iff

theorem sortedGroups_keys_eq {hashFn : Bytes → String} {args : Args}
    {fs₁ fs₂ : String → DirListing}
    (hsc : List.Perm (scannedFiles hashFn args fs₁) (scannedFiles hashFn args fs₂)) :
    (sortedGroups hashFn args fs₁).map Prod.fst
      = (sortedGroups hashFn args fs₂).map Prod.fst := by
  have hnd₁ : ((sortedGroups hashFn args fs₁).map Prod.fst).Nodup :=
    (groupFiles_keys_nodup _).perm ((sortGroups_perm _).map Prod.fst).symm
  have hnd₂ : ((sortedGroups hashFn args fs₂).map Prod.fst).Nodup :=
    (groupFiles_keys_nodup _).perm ((sortGroups_perm _).map Prod.fst).symm
  have hmem : ∀ k, k ∈ (sortedGroups hashFn args fs₁).map Prod.fst ↔
      k ∈ (sortedGroups hashFn args fs₂).map Prod.fst := by
    intro k
    rw [sortedGroups_key_mem, sortedGroups_key_mem]
    have hlen := (groupOf_perm hsc k).length_eq
    constructor
    · intro hne he
      exact hne (List.length_eq_zero.mp (by rw [hlen, he]; rfl))
    · intro hne he
      exact hne (List.length_eq_zero.mp (by rw [← hlen, he]; rfl))
  exact List.eq_of_perm_of_sorted ((List.perm_ext_iff_of_nodup hnd₁ hnd₂).mpr hmem)
    (sortGroups_keys_sorted_strict hnd₁) (sortGroups_keys_sorted_strict hnd₂)

theorem forall₂_of_keys_eq :
    ∀ (l₁ l₂ : List HashGroup) (v₁ v₂ : String → List FileEntry),
      l₁.map Prod.fst = l₂.map Prod.fst →
      (∀ p ∈ l₁, p.2 = v₁ p.1) → (∀ p ∈ l₂, p.2 = v₂ p.1) →
      (∀ k, List.Perm (v₁ k) (v₂ k)) →
      List.Forall₂ (fun g₁ g₂ : HashGroup => g₁.1 = g₂.1 ∧ List.Perm g₁.2 g₂.2) l₁ l₂ := by
  intro l₁
  induction l₁ with
  | nil =>
    intro l₂ v₁ v₂ hk _ _ _
    cases l₂ with
    | nil => exact List.Forall₂.nil
    | cons q s => simp at hk
  | cons p t ih =>
    intro l₂ v₁ v₂ hk h₁ h₂ hv
    cases l₂ with
    | nil => simp at hk
    | cons q s =>
      simp only [List.map_cons, List.cons.injEq] at hk
      refine List.Forall₂.cons ⟨hk.1, ?_⟩
        (ih s v₁ v₂ hk.2 (fun r hr => h₁ r (List.mem_cons_of_mem _ hr))
          (fun r hr => h₂ r (List.mem_cons_of_mem _ hr)) hv)
      rw [h₁ p (List.mem_cons_self _ _), h₂ q (List.mem_cons_self _ _), hk.1]
      exact hv q.1

theorem forall₂_filter_diffKeep {n : Nat} :
    ∀ {l₁ l₂ : List HashGroup},
      List.Forall₂ (fun g₁ g₂ : HashGroup => g₁.1 = g₂.1 ∧ List.Perm g₁.2 g₂.2) l₁ l₂ →
      List.Forall₂ (fun g₁ g₂ : HashGroup => g₁.1 = g₂.1 ∧ List.Perm g₁.2 g₂.2)
        (l₁.filter (fun g => diffKeep n g.2)) (l₂.filter (fun g => diffKeep n g.2)) := by
  intro l₁ l₂ h
  induction h with
  | nil => exact List.Forall₂.nil
  | @cons a b t₁ t₂ hab _ ih =>
    rw [List.filter_cons, List.filter_cons]
    have hk : diffKeep n a.2 = diffKeep n b.2 := diffKeep_perm hab.2
    by_cases hkeep : diffKeep n a.2 = true
    · rw [if_pos hkeep, if_pos (hk ▸ hkeep)]
      exact List.Forall₂.cons hab ih
    · have hkeep' : ¬diffKeep n b.2 = true := by rw [← hk]; exact hkeep
      rw [if_neg hkeep, if_neg hkeep']
      exact ih

theorem tableRowsAux_congr {args : Args} :
    ∀ {l₁ l₂ : List HashGroup},
      List.Forall₂ (fun g₁ g₂ : HashGroup => g₁.1 = g₂.1 ∧ List.Perm g₁.2 g₂.2) l₁ l₂ →
      ∀ c, tableRowsAux args c l₁ = tableRowsAux args c l₂ := by
  intro l₁ l₂ h
  induction h with
  | nil => intro c; rfl
  | @cons a b t₁ t₂ hab _ ih =>
    intro c
    show mkRow args c a :: tableRowsAux args (c + 1) t₁
      = mkRow args c b :: tableRowsAux args (c + 1) t₂
    rw [mkRow_perm hab.1 hab.2, ih (c + 1)]

theorem finalGroups_forall₂ {hashFn : Bytes → String} {args : Args}
    {fs₁ fs₂ : String → DirListing}
    (hperm : ∀ d ∈ args.directories, ListingPerm (fs₁ d) (fs₂ d)) :
    List.Forall₂ (fun g₁ g₂ : HashGroup => g₁.1 = g₂.1 ∧ List.Perm g₁.2 g₂.2)
      (finalGroups hashFn args fs₁) (finalGroups hashFn args fs₂) := by
  have hsc := @scannedFiles_perm hashFn args fs₁ fs₂ hperm
  have hsort : List.Forall₂ (fun g₁ g₂ : HashGroup => g₁.1 = g₂.1 ∧ List.Perm g₁.2 g₂.2)
      (sortedGroups hashFn args fs₁) (sortedGroups hashFn args fs₂) :=
    forall₂_of_keys_eq _ _ (groupOf (scannedFiles hashFn args fs₁))
      (groupOf (scannedFiles hashFn args fs₂)) (sortedGroups_keys_eq hsc)
      (fun p hp => sortedGroups_files hp) (fun p hp => sortedGroups_files hp)
      (fun k => groupOf_perm hsc k)
  unfold finalGroups
  by_cases hd : args.diffonly
  · rw [if_pos hd, if_pos hd]
    exact forall₂_filter_diffKeep hsort
  · rw [if_neg hd, if_neg hd]
    exact hsort

/-! Indexing the printed rows. -/

theorem tableRowsAux_getElem? (args : Args) :
    ∀ (l : List HashGroup) (c i : Nat),
      (tableRowsAux args c l)[i]? = (l[i]?).map (fun g => mkRow args (c + i) g) := by
  intro l
  induction l with
  | nil => intro c i; simp [tableRowsAux]
  | cons g t ih =>
    intro c i
    cases i with
    | zero =>
      show (mkRow args c g :: tableRowsAux args (c + 1) t)[0]? = _
      simp
    | succ j =>
      show (mkRow args c g :: tableRowsAux args (c + 1) t)[j + 1]? = _
      rw [List.getElem?_cons_succ, ih (c + 1) j, List.getElem?_cons_succ]
      have : c + 1 + j = c + (j + 1) := by omega
      rw [this]

theorem pairwise_getElem? {α : Type _} {R : α → α → Prop} {l : List α}
    (h : List.Pairwise R l) {i : Nat} {a b : α}
    (ha : l[i]? = some a) (hb : l[i + 1]? = some b) : R a b := by
  rw [List.getElem?_eq_some_iff] at ha hb
  obtain ⟨hi, ha⟩ := ha
  obtain ⟨hj, hb⟩ := hb
  have hp := List.pairwise_iff_get.mp h ⟨i, hi⟩ ⟨i + 1, hj⟩ (by simp)
  rw [List.get_eq_getElem, List.get_eq_getElem] at hp
  rw [← ha, ← hb]
  exact hp

theorem finalGroups_pairwise (hashFn : Bytes → String) (args : Args)
    (fs : String → DirListing) : List.Pairwise groupLe (finalGroups hashFn args fs) := by
  unfold finalGroups
  by_cases hd : args.diffonly
  · rw [if_pos hd]
    exact (sortGroups_sorted _).filter _
  · rw [if_neg hd]
    exact sortGroups_sorted _

/-! The extension filter. -/

theorem extensionMatches_some {filt : String} {name : String}
    (h : extensionMatches (some filt) name = true) : extensionOf name = some filt := by
  simp only [extensionMatches, Bool.or_eq_true, decide_eq_true_eq] at h
  rcases h with h | h
  · cases h
  · exact h.symm

theorem extensionMatches_none (name : String) : extensionMatches none name = true := by
  simp [extensionMatches]

/-! Diagnostics. -/

theorem mem_diagnostics {hashFn : Bytes → String} {args : Args}
    {fs : String → DirListing} {x : Diag} :
    x ∈ diagnostics hashFn args fs ↔
      ∃ d ∈ args.directories, x ∈ (scanListing hashFn args.extension d (fs d)).2 := by
  constructor
  · intro h
    obtain ⟨l, hl, hxl⟩ := List.mem_flatten.mp h
    obtain ⟨d, hd, rfl⟩ := List.mem_map.mp hl
    exact ⟨d, hd, hxl⟩
  · rintro ⟨d, hd, hxd⟩
    exact List.mem_flatten.mpr ⟨_, List.mem_map_of_mem _ hd, hxd⟩

theorem diag_entry_mem {hashFn : Bytes → String} {filt : Option String} {dir : String}
    {es : List EntryResult} {m : String} (hm : EntryResult.ioErr m ∈ es) :
    Diag.entryIterErr dir m ∈ (scanListing hashFn filt dir (DirListing.ok es)).2 := by
  simp only [scanListing]
  apply List.mem_flatten.mpr
  refine ⟨(scanEntry hashFn filt dir (EntryResult.ioErr m)).2, List.mem_map_of_mem _ hm, ?_⟩
  simp [scanEntry]

theorem diag_hashErr_mem {hashFn : Bytes → String} {filt : Option String} {dir : String}
    {es : List EntryResult} {e : DirEntryOk} {m : String} (he : EntryResult.ok e ∈ es)
    (hm : extensionMatches filt e.name = true)
    (hh : file_hash hashFn e.kind = Except.error m) :
    Diag.hashErr dir e.name m ∈ (scanListing hashFn filt dir (DirListing.ok es)).2 := by
  simp only [scanListing]
  apply List.mem_flatten.mpr
  refine ⟨(scanEntry hashFn filt dir (EntryResult.ok e)).2, List.mem_map_of_mem _ he, ?_⟩
  simp [scanEntry, hm, hh]

/-! What it takes for a file to be in a group. -/

theorem okName_mem {es : List EntryResult} {e : DirEntryOk}
    (he : EntryResult.ok e ∈ es) : e.name ∈ es.filterMap okName :=
  List.mem_filterMap.mpr ⟨_, he, rfl⟩

theorem okEntry_unique_by_name : ∀ {es : List EntryResult},
    (es.filterMap okName).Nodup → ∀ {e e' : DirEntryOk}, EntryResult.ok e ∈ es →
      EntryResult.ok e' ∈ es → e.name = e'.name → e = e' := by
  intro es
  induction es with
  | nil => intro _ e e' he _ _; cases he
  | cons x t ih =>
    intro hnd e e' he he' hname
    cases x with
    | ioErr m =>
      have hnd' : (t.filterMap okName).Nodup := by
        simpa [List.filterMap_cons, okName] using hnd
      rcases List.mem_cons.mp he with hcon | he2
      · cases hcon
      rcases List.mem_cons.mp he' with hcon | he2'
      · cases hcon
      exact ih hnd' he2 he2' hname
    | ok a =>
      rw [List.filterMap_cons] at hnd
      simp only [okName] at hnd
      rw [List.nodup_cons] at hnd
      rcases List.mem_cons.mp he with he1 | he2
      · injection he1 with hea
        rcases List.mem_cons.mp he' with he1' | he2'
        · injection he1' with hea'
          rw [hea, hea']
        · exfalso
          apply hnd.1
          rw [← hea, hname]
          exact okName_mem he2'
      · rcases List.mem_cons.mp he' with he1' | he2'
        · exfalso
          injection he1' with hea'
          apply hnd.1
          rw [← hea', ← hname]
          exact okName_mem he2
        · exact ih hnd.2 he2 he2' hname

theorem mem_group_entry {hashFn : Bytes → String} {args : Args}
    {fs : String → DirListing} {g : HashGroup} {f : FileEntry}
    (hg : g ∈ sortedGroups hashFn args fs) (hf : f ∈ g.2) :
    ∃ es e c, fs f.parent = DirListing.ok es ∧ EntryResult.ok e ∈ es ∧ e.name = f.name ∧
      e.kind = EntryKind.file (some c) ∧ extensionMatches args.extension e.name = true ∧
      f.parent ∈ args.directories ∧ g.1 = hashFn (sha256_digest c) := by
  have hsc := mem_group_scanned hg hf
  obtain ⟨d, hd, hpd⟩ := mem_scannedFiles.mp hsc
  have hpar : f.parent = d := mem_scanListing_parent hpd
  cases hfs : fs d with
  | notADir => rw [hfs] at hpd; simp [scanListing] at hpd
  | readErr m => rw [hfs] at hpd; simp [scanListing] at hpd
  | ok es =>
    rw [hfs, scanListing_ok_fst] at hpd
    obtain ⟨er, her, hsome⟩ := List.mem_filterMap.mp hpd
    obtain ⟨e, c, rfl, hk, hm, hpair⟩ := scanEntryPair_some_elim hsome
    have hg1 : g.1 = hashFn (sha256_digest c) := congrArg Prod.fst hpair
    have hf2 : f = { parent := d, name := e.name } := congrArg Prod.snd hpair
    refine ⟨es, e, c, ?_, her, ?_, hk, hm, ?_, hg1⟩
    · rw [hpar, hfs]
    · rw [hf2]
    · rw [hpar]; exact hd

theorem scanned_of_entry {hashFn : Bytes → String} {args : Args}
    {fs : String → DirListing} {d : String} {es : List EntryResult} {e : DirEntryOk}
    {c : Bytes} (hd : d ∈ args.directories) (hfs : fs d = DirListing.ok es)
    (he : EntryResult.ok e ∈ es) (hk : e.kind = EntryKind.file (some c))
    (hm : extensionMatches args.extension e.name = true) :
    (hashFn (sha256_digest c), ({ parent := d, name := e.name } : FileEntry))
      ∈ scannedFiles hashFn args fs := by
  apply mem_scannedFiles.mpr
  refine ⟨d, hd, ?_⟩
  rw [hfs, scanListing_ok_fst]
  exact List.mem_filterMap.mpr ⟨_, he, scanEntryPair_some_intro _ _ _ _ _ hk hm⟩

theorem grouped_of_scanned {hashFn : Bytes → String} {args : Args}
    {fs : String → DirListing} {p : String × FileEntry}
    (hp : p ∈ scannedFiles hashFn args fs) :
    ∃ g ∈ sortedGroups hashFn args fs, g.1 = p.1 ∧ p.2 ∈ g.2 := by
  have hmem : p.2 ∈ groupOf (scannedFiles hashFn args fs) p.1 :=
    List.mem_map.mpr ⟨p, List.mem_filter.mpr ⟨hp, by simp⟩, rfl⟩
  have hne : groupOf (scannedFiles hashFn args fs) p.1 ≠ [] := by
    intro he
    rw [he] at hmem
    cases hmem
  refine ⟨(p.1, groupOf (scannedFiles hashFn args fs) p.1), ?_, rfl, hmem⟩
  apply mem_sortedGroups.mpr
  exact mem_groupFiles_iff.mpr ⟨hne, rfl⟩

/-! # Claims -/

/-- C3: for every run, the rows of the final report are ordered by digest
string in non-decreasing lexicographic order: any two consecutive printed
groups have `digestLe`-related digests, regardless of scan order. -/
theorem claim_C3 (hashFn : Bytes → String) (args : Args) (fs : String → DirListing)
    (i : Nat) (g₁ g₂ : HashGroup)
    (h₁ : (finalGroups hashFn args fs)[i]? = some g₁)
    (h₂ : (finalGroups hashFn args fs)[i + 1]? = some g₂) :
    digestLe g₁.1 g₂.1 :=
  pairwise_getElem? (finalGroups_pairwise hashFn args fs) h₁ h₂

/-- Witness for C3 at a concrete two-group run. -/
theorem claim_C3_witness : digestLe "A" "B" :=
  claim_C3 hashAB argsW3 fsW3 0 ("A", [⟨"a", "f1"⟩]) ("B", [⟨"a", "f2"⟩])
    (by decide) (by decide)

/-- C5: `fixed_length` returns exactly `N` grapheme clusters — the first
`N` clusters of `s` when `s` is long enough (truncating at whole-cluster
boundaries), and `s` padded with spaces otherwise; the two concrete
examples of the spec hold, and every per-directory text cell of the table
(header and data rows) is rendered through this fitting at the configured
column width. -/
theorem claim_C5 (s : List String) (N : Nat) :
    (fixed_length s N " ").length = N ∧
    (N ≤ s.length → fixed_length s N " " = s.take N) ∧
    (s.length ≤ N → fixed_length s N " " = s ++ List.replicate (N - s.length) " ") ∧
    fixed_length ["a", "b", "c"] 5 " " = ["a", "b", "c", " ", " "] ∧
    String.join (fixed_length ["a", "b", "c"] 5 " ") = "abc  " ∧
    fixed_length ["a", "b", "c", "d", "e", "f", "g", "h"] 5 " "
      = ["a", "b", "c", "d", "e"] ∧
    String.join (fixed_length ["a", "b", "c", "d", "e", "f", "g", "h"] 5 " ") = "abcde" ∧
    (∀ (graphemes : String → List String) (fileNameOf : String → Option String)
        (args : Args),
      headerLine graphemes fileNameOf args =
        "#\tSHA256" ++ repeatStr " " (64 - "SHA256".length) ++ "\t" ++
          String.intercalate "\t" (args.directories.map (fun d =>
            String.join (fixed_length (graphemes ((fileNameOf d).getD "???"))
              args.colwidth " ")))) ∧
    (∀ (graphemes : String → List String) (args : Args) (r : Row),
      rowLine graphemes args r =
        toString r.ordinal ++ "\t" ++ r.digest ++ "\t" ++
          String.intercalate "\t" (r.cells.map (fun c =>
            String.join (fixed_length (graphemes c) args.colwidth " ")))) :=
  ⟨fixed_length_length s N " ",
   fun h => fixed_length_of_le " " h,
   fun h => fixed_length_of_ge " " h,
   by decide, by decide, by decide, by decide,
   fun _ _ _ => rfl, fun _ _ _ => rfl⟩

/-- Witness for C5 at concrete strings and width. -/
theorem claim_C5_witness :
    (fixed_length ["a", "b", "c"] 5 " ").length = 5 ∧
    fixed_length ["a", "b", "c"] 5 " " = ["a", "b", "c"] ++ List.replicate 2 " " ∧
    fixed_length ["a", "b", "c", "d", "e", "f", "g", "h"] 5 " "
      = ["a", "b", "c", "d", "e", "f", "g", "h"].take 5 :=
  ⟨(claim_C5 ["a", "b", "c"] 5).1,
   (claim_C5 ["a", "b", "c"] 5).2.2.1 (by decide),
   (claim_C5 ["a", "b", "c", "d", "e", "f", "g", "h"] 5).2.1 (by decide)⟩

/-- C10: every group of the digest-to-files map is non-empty once created,
and the diff filter evaluates the size disjunct before the name disjunct,
so the `files[0]` access of the name test never indexes out of bounds: the
checked evaluation always returns `some` and agrees with `diffKeep`. -/
theorem claim_C10 (hashFn : Bytes → String) (args : Args) (fs : String → DirListing) :
    (∀ g ∈ groupFiles (scannedFiles hashFn args fs), g.2 ≠ []) ∧
    (∀ g ∈ sortedGroups hashFn args fs,
      diffKeepChecked args.directories.length g.2
        = some (diffKeep args.directories.length g.2)) := by
  constructor
  · intro g hg
    have hc := mem_groupFiles_iff.mp hg
    rw [hc.2]
    exact hc.1
  · intro g hg
    have hc := mem_groupFiles_iff.mp (mem_sortedGroups.mp hg)
    have hne : g.2 ≠ [] := by rw [hc.2]; exact hc.1
    exact diffKeepChecked_eq hne

/-- Witness for C10 at a concrete run and group. -/
theorem claim_C10_witness :
    ([⟨"a", "f1"⟩, ⟨"a", "f2"⟩] : List FileEntry) ≠ [] ∧
    diffKeepChecked 1 [⟨"a", "f1"⟩, ⟨"a", "f2"⟩]
      = some (diffKeep 1 [⟨"a", "f1"⟩, ⟨"a", "f2"⟩]) :=
  ⟨(claim_C10 hashC argsW7 fsW7).1 ("H", [⟨"a", "f1"⟩, ⟨"a", "f2"⟩]) (by decide),
   (claim_C10 hashC argsW7 fsW7).2 ("H", [⟨"a", "f1"⟩, ⟨"a", "f2"⟩]) (by decide)⟩

/-- C8: the chunked hashing loop absorbs exactly the file's full byte
content, so the streamed digest equals the digest of the whole content
(`file_digest_spec`), and two scanned files with byte-identical content
always end up in the same group. -/
theorem claim_C8 (hashFn : Bytes → String) :
    (∀ content : Bytes, sha256_digest content = content) ∧
    (∀ content : Bytes,
      hashFn (sha256_digest content) = file_digest_spec hashFn content) ∧
    (∀ (args : Args) (fs : String → DirListing) (d₁ d₂ : String)
        (es₁ es₂ : List EntryResult) (e₁ e₂ : DirEntryOk) (c : Bytes),
      d₁ ∈ args.directories → d₂ ∈ args.directories →
      fs d₁ = DirListing.ok es₁ → fs d₂ = DirListing.ok es₂ →
      EntryResult.ok e₁ ∈ es₁ → EntryResult.ok e₂ ∈ es₂ →
      e₁.kind = EntryKind.file (some c) → e₂.kind = EntryKind.file (some c) →
      extensionMatches args.extension e₁.name = true →
      extensionMatches args.extension e₂.name = true →
      ∃ g ∈ sortedGroups hashFn args fs,
        ({ parent := d₁, name := e₁.name } : FileEntry) ∈ g.2 ∧
        ({ parent := d₂, name := e₂.name } : FileEntry) ∈ g.2) := by
  refine ⟨sha256_digest_eq, fun c => congrArg hashFn (sha256_digest_eq c), ?_⟩
  intro args fs d₁ d₂ es₁ es₂ e₁ e₂ c hd₁ hd₂ hfs₁ hfs₂ he₁ he₂ hk₁ hk₂ hm₁ hm₂
  have hp₁ := @scanned_of_entry hashFn args fs d₁ es₁ e₁ c hd₁ hfs₁ he₁ hk₁ hm₁
  have hp₂ := @scanned_of_entry hashFn args fs d₂ es₂ e₂ c hd₂ hfs₂ he₂ hk₂ hm₂
  obtain ⟨g, hg, hg1, hmem₁⟩ := grouped_of_scanned hp₁
  refine ⟨g, hg, hmem₁, ?_⟩
  rw [sortedGroups_files hg]
  apply List.mem_map.mpr
  refine ⟨(hashFn (sha256_digest c), ⟨d₂, e₂.name⟩),
    List.mem_filter.mpr ⟨hp₂, ?_⟩, rfl⟩
  simp [hg1]

/-- Witness for C8: two directories holding a byte-identical file. -/
theorem claim_C8_witness :
    sha256_digest [1, 2, 3] = [1, 2, 3] ∧
    ∃ g ∈ sortedGroups hashC argsW8 fsW8,
      ({ parent := "a", name := "x" } : FileEntry) ∈ g.2 ∧
      ({ parent := "b", name := "y" } : FileEntry) ∈ g.2 :=
  ⟨(claim_C8 hashC).1 [1, 2, 3],
   (claim_C8 hashC).2.2 argsW8 fsW8 "a" "b"
     [EntryResult.ok ⟨"x", EntryKind.file (some [5])⟩]
     [EntryResult.ok ⟨"y", EntryKind.file (some [5])⟩]
     ⟨"x", EntryKind.file (some [5])⟩ ⟨"y", EntryKind.file (some [5])⟩ [5]
     (by decide) (by decide) (by decide) (by decide) (by decide) (by decide)
     rfl rfl (by decide) (by decide)⟩

/-- C4: for a fixed set of input directories, contents and options, any two
runs whose per-directory listings are permutations of each other print
character-for-character the same table on standard output. -/
theorem claim_C4 (hashFn : Bytes → String) (graphemes : String → List String)
    (fileNameOf : String → Option String) (args : Args)
    (fs₁ fs₂ : String → DirListing)
    (hperm : ∀ d ∈ args.directories, ListingPerm (fs₁ d) (fs₂ d)) :
    table hashFn graphemes fileNameOf args fs₁
      = table hashFn graphemes fileNameOf args fs₂ := by
  have hrows : tableRows hashFn args fs₁ = tableRows hashFn args fs₂ :=
    tableRowsAux_congr (@finalGroups_forall₂ hashFn args fs₁ fs₂ hperm) 1
  unfold table tableRows at hrows ⊢
  rw [hrows]

/-- Witness for C4: the same directory listed in two different orders. -/
theorem claim_C4_witness :
    table hashAB graphemesW fileNameW argsW3 fsW3
      = table hashAB graphemesW fileNameW argsW3 fsW4 :=
  claim_C4 hashAB graphemesW fileNameW argsW3 fsW3 fsW4 (by decide)

/-- C1: in diff-only mode a group is kept iff its size differs from the
number of input directories or its file names are not all identical; and,
for runs with pairwise distinct directories (on a wellformed filesystem),
a group is dropped exactly when every input directory contributes exactly
one file to it and all the group's files share one name. -/
theorem claim_C1 (hashFn : Bytes → String) (args : Args) (fs : String → DirListing)
    (hdiff : args.diffonly = true) :
    (∀ g ∈ sortedGroups hashFn args fs,
      (g ∈ finalGroups hashFn args fs ↔
        (g.2.length ≠ args.directories.length ∨
          ¬∀ f ∈ g.2, ∀ f' ∈ g.2, f.name = f'.name))) ∧
    (args.directories.Nodup → (∀ d ∈ args.directories, listingNamesNodup (fs d)) →
      ∀ g ∈ sortedGroups hashFn args fs,
        (g ∉ finalGroups hashFn args fs ↔
          ((∀ d ∈ args.directories,
              (g.2.filter (fun f => f.parent == d)).length = 1) ∧
            ∀ f ∈ g.2, ∀ f' ∈ g.2, f.name = f'.name))) := by
  constructor
  · intro g hg
    rw [mem_finalGroups_diff hdiff]
    constructor
    · rintro ⟨-, hkeep⟩
      by_cases hlen : g.2.length = args.directories.length
      · right
        intro hall
        have hfalse : diffKeep args.directories.length g.2 = false :=
          diffKeep_eq_false_iff.mpr ⟨hlen, allSameName_iff.mpr hall⟩
        rw [hfalse] at hkeep
        cases hkeep
      · left; exact hlen
    · intro h
      refine ⟨hg, ?_⟩
      by_contra hkeep
      have hfalse : diffKeep args.directories.length g.2 = false :=
        Bool.eq_false_iff.mpr hkeep
      have hc := diffKeep_eq_false_iff.mp hfalse
      rcases h with hlen | hnames
      · exact hlen hc.1
      · exact hnames (allSameName_iff.mp hc.2)
  · intro hnd hwf g hg
    have hpar : ∀ f ∈ g.2, f.parent ∈ args.directories := fun f hf =>
      scannedFiles_parent_mem (mem_group_scanned hg hf)
    have hsum := length_eq_sum_parent_counts args.directories g.2 hnd hpar
    rw [mem_finalGroups_diff hdiff]
    constructor
    · intro hnot
      have hkfalse : diffKeep args.directories.length g.2 = false := by
        cases hbv : diffKeep args.directories.length g.2
        · rfl
        · exact absurd ⟨hg, hbv⟩ hnot
      obtain ⟨hlen, hall⟩ := diffKeep_eq_false_iff.mp hkfalse
      have hallp := allSameName_iff.mp hall
      refine ⟨?_, hallp⟩
      have hle1 : ∀ d ∈ args.directories,
          (g.2.filter (fun f => f.parent == d)).length ≤ 1 := by
        intro d hd
        by_contra hgt
        push_neg at hgt
        obtain ⟨f₁, hf₁, f₂, hf₂, hnef⟩ := exists_ne_name_of_two
          (group_slice_names_nodup hg hnd hd (hwf d hd)) hgt
        exact hnef (hallp f₁ (List.mem_of_mem_filter hf₁) f₂
          (List.mem_of_mem_filter hf₂))
      intro d hd
      have hin : (g.2.filter (fun f => f.parent == d)).length ∈
          args.directories.map
            (fun d => (g.2.filter (fun f => f.parent == d)).length) :=
        List.mem_map_of_mem _ hd
      refine all_one_of_sum_eq_length _ ?_ ?_ _ hin
      · intro n hn
        obtain ⟨d', hd', rfl⟩ := List.mem_map.mp hn
        exact hle1 d' hd'
      · rw [hsum, List.length_map]
        exact hlen
    · rintro ⟨hcounts, hallp⟩ ⟨-, hkeep⟩
      have hone : args.directories.map
          (fun d => (g.2.filter (fun f => f.parent == d)).length)
          = args.directories.map (fun _ => 1) :=
        List.map_congr_left hcounts
      have hsum1 : (args.directories.map
          (fun d => (g.2.filter (fun f => f.parent == d)).length)).sum
          = args.directories.length := by
        rw [hone]
        simp
      have hlen : g.2.length = args.directories.length := hsum ▸ hsum1
      have hkfalse : diffKeep args.directories.length g.2 = false :=
        diffKeep_eq_false_iff.mpr ⟨hlen, allSameName_iff.mpr hallp⟩
      rw [hkfalse] at hkeep
      cases hkeep

/-- Witness for C1: one file present in one of two directories is kept. -/
theorem claim_C1_witness :
    (("H", [⟨"a", "f1"⟩]) : HashGroup) ∈ finalGroups hashC argsW1 fsW1 :=
  ((claim_C1 hashC argsW1 fsW1 rfl).1 ("H", [⟨"a", "f1"⟩]) (by decide)).mpr
    (Or.inl (by decide))

/-- C2: the row printed for the i-th surviving group carries the 1-based
ordinal `i + 1`, the full digest string, and one summary cell per input
directory in command-line order: "–" for zero files of the group in that
directory, the file's name for exactly one, "(n files)" for n ≥ 2. -/
theorem claim_C2 (hashFn : Bytes → String) (args : Args) (fs : String → DirListing)
    (i : Nat) (g : HashGroup) (hi : (finalGroups hashFn args fs)[i]? = some g) :
    (tableRows hashFn args fs)[i]? =
      some { ordinal := i + 1, digest := g.1,
             cells := args.directories.map (fun d => summaryCell g.2 d) } ∧
    ∀ d ∈ args.directories,
      (g.2.filter (fun f => f.parent == d) = [] → summaryCell g.2 d = "–") ∧
      (∀ f, g.2.filter (fun f => f.parent == d) = [f] → summaryCell g.2 d = f.name) ∧
      (2 ≤ (g.2.filter (fun f => f.parent == d)).length →
        summaryCell g.2 d = "(" ++
          toString (g.2.filter (fun f => f.parent == d)).length ++ " files)") := by
  constructor
  · unfold tableRows
    rw [tableRowsAux_getElem? args _ 1 i, hi]
    show some (mkRow args (1 + i) g) = _
    unfold mkRow
    have h1i : 1 + i = i + 1 := by omega
    rw [h1i]
  · intro d _
    refine ⟨?_, ?_, ?_⟩
    · intro he
      unfold summaryCell
      rw [he]
      rfl
    · intro f hf
      unfold summaryCell
      rw [hf]
      rfl
    · intro h2
      unfold summaryCell
      rcases hsl : g.2.filter (fun f => f.parent == d) with _ | ⟨x, _ | ⟨y, t⟩⟩
      · rw [hsl] at h2
        simp at h2
      · rw [hsl] at h2
        simp at h2
      · rw [hsl]
        rfl

/-- Witness for C2 at a concrete one-group run. -/
theorem claim_C2_witness :
    (tableRows hashC argsW1 fsW1)[0]? =
      some { ordinal := 1, digest := "H",
             cells := ["a", "b"].map (fun d => summaryCell [⟨"a", "f1"⟩] d) } :=
  (claim_C2 hashC argsW1 fsW1 0 ("H", [⟨"a", "f1"⟩]) (by decide)).1

/-- C6: the files a directory contributes to the grouping are exactly the
readable regular files directly inside it that pass the extension filter:
every contributed file corresponds to an immediately listed regular entry
(so subdirectories and other non-file entries never contribute, and
nothing is taken from deeper levels), every such entry does contribute,
with a configured filter every contributed file's final extension equals
the filter exactly, and an entry with no extension never contributes when
a filter is configured. -/
theorem claim_C6 (hashFn : Bytes → String) (filt : Option String) (dir : String)
    (es : List EntryResult) :
    (∀ p ∈ (scanListing hashFn filt dir (DirListing.ok es)).1,
      p.2.parent = dir ∧ ∃ e, EntryResult.ok e ∈ es ∧ p.2.name = e.name ∧
        (∃ c, e.kind = EntryKind.file (some c)) ∧
        extensionMatches filt e.name = true) ∧
    (∀ e, EntryResult.ok e ∈ es → (∃ c, e.kind = EntryKind.file (some c)) →
      extensionMatches filt e.name = true →
      ∃ h, (h, ({ parent := dir, name := e.name } : FileEntry))
        ∈ (scanListing hashFn filt dir (DirListing.ok es)).1) ∧
    (∀ fext : String, filt = some fext →
      ∀ p ∈ (scanListing hashFn filt dir (DirListing.ok es)).1,
        extensionOf p.2.name = some fext) ∧
    (∀ e, EntryResult.ok e ∈ es → extensionOf e.name = none →
      ∀ fext : String, filt = some fext →
      ∀ h, (h, ({ parent := dir, name := e.name } : FileEntry))
        ∉ (scanListing hashFn filt dir (DirListing.ok es)).1) := by
  have hchar : ∀ p ∈ (scanListing hashFn filt dir (DirListing.ok es)).1,
      ∃ e c, EntryResult.ok e ∈ es ∧ e.kind = EntryKind.file (some c) ∧
        extensionMatches filt e.name = true ∧
        p = (hashFn (sha256_digest c),
          ({ parent := dir, name := e.name } : FileEntry)) := by
    intro p hp
    rw [scanListing_ok_fst] at hp
    obtain ⟨er, her, hsome⟩ := List.mem_filterMap.mp hp
    obtain ⟨e, c, rfl, hk, hm, hpair⟩ := scanEntryPair_some_elim hsome
    exact ⟨e, c, her, hk, hm, hpair⟩
  refine ⟨?_, ?_, ?_, ?_⟩
  · intro p hp
    obtain ⟨e, c, her, hk, hm, hpair⟩ := hchar p hp
    rw [hpair]
    exact ⟨rfl, e, her, rfl, ⟨c, hk⟩, hm⟩
  · rintro e he ⟨c, hk⟩ hm
    refine ⟨hashFn (sha256_digest c), ?_⟩
    rw [scanListing_ok_fst]
    exact List.mem_filterMap.mpr ⟨_, he, scanEntryPair_some_intro _ _ _ _ _ hk hm⟩
  · intro fext hf p hp
    obtain ⟨e, c, her, hk, hm, hpair⟩ := hchar p hp
    rw [hf] at hm
    rw [hpair]
    exact extensionMatches_some hm
  · intro e he hnone fext hf h hmem
    obtain ⟨e', c, her', hk', hm', hpair⟩ := hchar _ hmem
    have hname : e.name = e'.name := congrArg FileEntry.name (congrArg Prod.snd hpair)
    rw [hf] at hm'
    have hext := extensionMatches_some hm'
    rw [← hname] at hext
    rw [hext] at hnone
    cases hnone

/-- Witness for C6: a matching `.txt` file in a mixed listing. -/
theorem claim_C6_witness :
    ∃ h, (h, ({ parent := "d", name := "a.txt" } : FileEntry))
      ∈ (scanListing hashC (some "txt") "d"
          (DirListing.ok
            [EntryResult.ok ⟨"a.txt", EntryKind.file (some [1])⟩,
             EntryResult.ok ⟨"b.md", EntryKind.file (some [2])⟩,
             EntryResult.ok ⟨"sub", EntryKind.nonFile⟩])).1 :=
  (claim_C6 hashC (some "txt") "d"
      [EntryResult.ok ⟨"a.txt", EntryKind.file (some [1])⟩,
       EntryResult.ok ⟨"b.md", EntryKind.file (some [2])⟩,
       EntryResult.ok ⟨"sub", EntryKind.nonFile⟩]).2.1
    ⟨"a.txt", EntryKind.file (some [1])⟩ (by decide) ⟨[1], rfl⟩ (by decide)

/-- C7: in diff-only mode, on pairwise distinct directories over a
wellformed filesystem, a group to which some single directory contributes
two or more files is always kept: the two files necessarily have distinct
names, so the all-names-identical test fails. -/
theorem claim_C7 (hashFn : Bytes → String) (args : Args) (fs : String → DirListing)
    (hdiff : args.diffonly = true) (hnd : args.directories.Nodup)
    (hwf : ∀ d ∈ args.directories, listingNamesNodup (fs d))
    (g : HashGroup) (hg : g ∈ sortedGroups hashFn args fs)
    (d : String) (hd : d ∈ args.directories)
    (h2 : 2 ≤ (g.2.filter (fun f => f.parent == d)).length) :
    g ∈ finalGroups hashFn args fs := by
  rw [mem_finalGroups_diff hdiff]
  refine ⟨hg, ?_⟩
  obtain ⟨f₁, hf₁, f₂, hf₂, hne⟩ := exists_ne_name_of_two
    (group_slice_names_nodup hg hnd hd (hwf d hd)) h2
  have hall : allSameName g.2 = false := by
    rw [Bool.eq_false_iff]
    intro hall
    exact hne (allSameName_iff.mp hall f₁ (List.mem_of_mem_filter hf₁) f₂
      (List.mem_of_mem_filter hf₂))
  unfold diffKeep
  rw [hall]
  simp

/-- Witness for C7: two same-content files in one directory are kept. -/
theorem claim_C7_witness :
    (("H", [⟨"a", "f1"⟩, ⟨"a", "f2"⟩]) : HashGroup) ∈ finalGroups hashC argsW7 fsW7 :=
  claim_C7 hashC argsW7 fsW7 rfl (by decide) (by decide)
    ("H", [⟨"a", "f1"⟩, ⟨"a", "f2"⟩]) (by decide) "a" (by decide) (by decide)

/-- C9: every failure is non-fatal.  The program always reaches the
table-printing phase (the output is always the blank line, the header,
one line per surviving group and a final blank line); each failure kind
produces its diagnostic while the remaining items are still processed
(a successfully hashed file is grouped no matter what else failed); and a
file whose hashing fails contributes to no group: every group member comes
from a successfully read regular file, and on a wellformed listing the
failing file itself appears in no group (hence in no rendered cell, whose
content is computed from group members only). -/
theorem claim_C9 (hashFn : Bytes → String) (graphemes : String → List String)
    (fileNameOf : String → Option String) (args : Args) (fs : String → DirListing) :
    (table hashFn graphemes fileNameOf args fs
      = "" :: headerLine graphemes fileNameOf args ::
        ((tableRows hashFn args fs).map (fun r => rowLine graphemes args r) ++ [""])) ∧
    (∀ d ∈ args.directories, fs d = DirListing.notADir →
      Diag.notADir d ∈ diagnostics hashFn args fs) ∧
    (∀ d ∈ args.directories, ∀ m, fs d = DirListing.readErr m →
      Diag.dirReadErr d m ∈ diagnostics hashFn args fs) ∧
    (∀ d ∈ args.directories, ∀ es m, fs d = DirListing.ok es →
      EntryResult.ioErr m ∈ es → Diag.entryIterErr d m ∈ diagnostics hashFn args fs) ∧
    (∀ d ∈ args.directories, ∀ es e m, fs d = DirListing.ok es →
      EntryResult.ok e ∈ es → extensionMatches args.extension e.name = true →
      file_hash hashFn e.kind = Except.error m →
      Diag.hashErr d e.name m ∈ diagnostics hashFn args fs) ∧
    (∀ d ∈ args.directories, ∀ es e c, fs d = DirListing.ok es →
      EntryResult.ok e ∈ es → e.kind = EntryKind.file (some c) →
      extensionMatches args.extension e.name = true →
      ∃ g ∈ sortedGroups hashFn args fs,
        ({ parent := d, name := e.name } : FileEntry) ∈ g.2) ∧
    (∀ g ∈ sortedGroups hashFn args fs, ∀ f ∈ g.2,
      ∃ es e c, fs f.parent = DirListing.ok es ∧ EntryResult.ok e ∈ es ∧
        e.name = f.name ∧ e.kind = EntryKind.file (some c)) ∧
    (∀ d ∈ args.directories, listingNamesNodup (fs d) →
      ∀ es e m, fs d = DirListing.ok es → EntryResult.ok e ∈ es →
      file_hash hashFn e.kind = Except.error m →
      ∀ g ∈ sortedGroups hashFn args fs,
        ({ parent := d, name := e.name } : FileEntry) ∉ g.2) := by
  refine ⟨rfl, ?_, ?_, ?_, ?_, ?_, ?_, ?_⟩
  · intro d hd hfs
    exact mem_diagnostics.mpr ⟨d, hd, by rw [hfs]; exact List.mem_cons_self _ _⟩
  · intro d hd m hfs
    exact mem_diagnostics.mpr ⟨d, hd, by rw [hfs]; exact List.mem_cons_self _ _⟩
  · intro d hd es m hfs hm
    exact mem_diagnostics.mpr ⟨d, hd, by rw [hfs]; exact diag_entry_mem hm⟩
  · intro d hd es e m hfs he hm hh
    exact mem_diagnostics.mpr ⟨d, hd, by rw [hfs]; exact diag_hashErr_mem he hm hh⟩
  · intro d hd es e c hfs he hk hm
    have hp := @scanned_of_entry hashFn args fs d es e c hd hfs he hk hm
    obtain ⟨g, hg, -, hmem⟩ := grouped_of_scanned hp
    exact ⟨g, hg, hmem⟩
  · intro g hg f hf
    obtain ⟨es, e, c, hfs, he, hn, hk, -, -, -⟩ := mem_group_entry hg hf
    exact ⟨es, e, c, hfs, he, hn, hk⟩
  · intro d hd hwf es e m hfs he hh g hg hmem
    obtain ⟨es', e', c, hfs', he', hn', hk', -, -, -⟩ := mem_group_entry hg hmem
    simp only at hfs' hn'
    rw [hfs] at hfs'
    injection hfs' with hes
    rw [hfs] at hwf
    have hee : e' = e := okEntry_unique_by_name hwf (hes ▸ he') he hn'
    have hk : e.kind = EntryKind.file (some c) := hee ▸ hk'
    rw [hk] at hh
    simp [file_hash] at hh

/-- Witness for C9: a not-a-directory path, an unreadable directory, an
entry iteration error, an unreadable file, and a good file in one run. -/
theorem claim_C9_witness :
    Diag.notADir "a" ∈ diagnostics hashC argsW9 fsW9 ∧
    Diag.dirReadErr "c" "denied" ∈ diagnostics hashC argsW9 fsW9 ∧
    Diag.entryIterErr "b" "io" ∈ diagnostics hashC argsW9 fsW9 ∧
    Diag.hashErr "b" "bad" "could not be read" ∈ diagnostics hashC argsW9 fsW9 ∧
    ∃ g ∈ sortedGroups hashC argsW9 fsW9,
      ({ parent := "b", name := "good" } : FileEntry) ∈ g.2 :=
  ⟨(claim_C9 hashC graphemesW fileNameW argsW9 fsW9).2.1 "a" (by decide) (by decide),
   (claim_C9 hashC graphemesW fileNameW argsW9 fsW9).2.2.1 "c" (by decide) "denied"
     (by decide),
   (claim_C9 hashC graphemesW fileNameW argsW9 fsW9).2.2.2.1 "b" (by decide)
     [EntryResult.ioErr "io", EntryResult.ok ⟨"bad", EntryKind.file none⟩,
      EntryResult.ok ⟨"good", EntryKind.file (some [1])⟩] "io" (by decide) (by decide),
   (claim_C9 hashC graphemesW fileNameW argsW9 fsW9).2.2.2.2.1 "b" (by decide)
     [EntryResult.ioErr "io", EntryResult.ok ⟨"bad", EntryKind.file none⟩,
      EntryResult.ok ⟨"good", EntryKind.file (some [1])⟩]
     ⟨"bad", EntryKind.file none⟩ "could not be read" (by decide) (by decide)
     (by decide) rfl,
   (claim_C9 hashC graphemesW fileNameW argsW9 fsW9).2.2.2.2.2.1 "b" (by decide)
     [EntryResult.ioErr "io", EntryResult.ok ⟨"bad", EntryKind.file none⟩,
      EntryResult.ok ⟨"good", EntryKind.file (some [1])⟩]
     ⟨"good", EntryKind.file (some [1])⟩ [1] (by decide) (by decide) rfl (by decide)⟩
